import Mathlib

/-!
Verification of the covariance-regularization core of the `lsqfit`/`gvar`
repository (files `src/gvar/__init__.py` and `src/lsqfit/_extras.py`).

The Python code is shallowly embedded:

* `find_diagonal_blocks` works on CPython sets of small non-negative
  integers.  Such sets iterate in ascending order (`hash(i) = i`, open
  addressing with table slots in value order) and `set.pop()` removes the
  first occupied slot (the probe finger starts at 0 and only moves
  forward), so for the traces considered here the popped element is the
  smallest remaining one.  We therefore model a Python set of indices as a
  strictly ascending `List ℕ`.
* matrices are `List (List ℚ)` (exact rationals in place of floats;
  floating-point rounding is outside the scope of this embedding);
* a `GVar` (correlated Gaussian variable, external collaborator) is a mean
  together with a list of coefficients on a shared basis of independent
  unit-variance normals, so that covariances are exact dot products;
* the `SVD` class, `evalcov`, `gammaQ` and `numpy.linalg.inv` live outside
  `src/` and are modelled from the spec, as oracle parameters constrained
  by hypotheses where a claim needs their contracts.
-/

/-! ### Sorted-list model of CPython sets of small naturals -/

/-- Insert `x` into an ascending duplicate-free list, keeping it ascending
and duplicate-free.  Models adding an element to a CPython set of small
non-negative integers. -/
def insertS (x : ℕ) : List ℕ → List ℕ
  | [] => [x]
  | y :: ys =>
    if x < y then x :: y :: ys
    else if x = y then y :: ys
    else y :: insertS x ys

/-- Set union (`set.update`): fold the right list into the left. -/
def unionS (a b : List ℕ) : List ℕ :=
  b.foldl (fun acc x => insertS x acc) a

/-- `set.isdisjoint`. -/
def disjointS (a b : List ℕ) : Bool :=
  a.all (fun x => !(b.contains x))

/-! ### `find_diagonal_blocks` (src/gvar/__init__.py, lines 455-482) -/

/-- `set(m[i].nonzero()[0]); non_zero[i].add(i)`: the column indices of the
nonzero entries of row `i` of `m`, together with `i` itself. -/
def pyNonZero (m : List (List ℚ)) (i : ℕ) : List ℕ :=
  insertS i ((((m.getD i []).enum).filter (fun p => p.2 ≠ 0)).map Prod.fst)

/-- The list `non_zero` built by the first loop of `find_diagonal_blocks`. -/
def nonZeroSets (m : List (List ℚ)) : List (List ℕ) :=
  (List.range m.length).map (fun i => pyNonZero m i)

/-- The inner `for j in unassigned_indices` loop of `find_diagonal_blocks`:
a single sweep over the unassigned indices, merging every `non_zero[j]`
that overlaps the block built so far.  (The Python code does not iterate
this sweep to a fixed point.) -/
def sweepJs (nz : List (List ℕ)) : List ℕ → List ℕ → List ℕ
  | blk, [] => blk
  | blk, j :: rest =>
    if disjointS blk (nz.getD j []) then sweepJs nz blk rest
    else sweepJs nz (unionS blk (nz.getD j [])) rest

/-- The `while unassigned_indices` loop of `find_diagonal_blocks`.
`set.pop()` removes the smallest remaining index (see the header comment);
`fuel` bounds the number of iterations (each iteration removes at least
the popped index, so `fuel = n` suffices). -/
def fdbLoop (nz : List (List ℕ)) : ℕ → List ℕ → List (List ℕ)
  | 0, _ => []
  | _ + 1, [] => []
  | fuel + 1, i :: rest =>
    let blk := sweepJs nz (nz.getD i []) rest
    blk :: fdbLoop nz fuel (rest.filter (fun j => !(blk.contains j)))

/-- `find_diagonal_blocks(m)` (src/gvar/__init__.py, lines 455-482): the
1x1 blocks are collected first, in index order; the remaining indices are
grouped by the single-sweep union loop.  All blocks are returned sorted
ascending (Python sorts each block at the end). -/
def find_diagonal_blocks (m : List (List ℚ)) : List (List ℕ) :=
  let nz := nonZeroSets m
  let n := m.length
  let singles := (List.range n).filter (fun i => (nz.getD i []).length = 1)
  let rest := (List.range n).filter (fun i => (nz.getD i []).length ≠ 1)
  singles.map (fun i => [i]) ++ fdbLoop nz n rest

/-- The 5x5 symmetric 0/1 covariance matrix whose off-diagonal nonzero
pattern is the chain 0-4, 4-3, 3-2, 2-1. -/
def covC1 : List (List ℚ) :=
  [[1, 0, 0, 0, 1],
   [0, 1, 1, 0, 0],
   [0, 1, 1, 1, 0],
   [0, 0, 1, 1, 1],
   [1, 0, 0, 1, 1]]

/-- Entry `(i, j)` of `covC1`. -/
def covC1get (i j : ℕ) : ℚ :=
  (covC1.getD i []).getD j 0

/-- C1: `find_diagonal_blocks` is claimed to return a partition of the
index set into connectivity classes of the nonzero pattern.  On the
symmetric matrix `covC1` the single-sweep union loop terminates too
early: the code returns the blocks `[0,2,3,4]` and `[1,2]`, which are not
disjoint (index 2 appears in both), and the connected indices 0 and 1
(chain 0-4-3-2-1 of nonzero entries) share no block. -/
theorem find_diagonal_blocks_not_partition :
    find_diagonal_blocks covC1 = [[0, 2, 3, 4], [1, 2]] ∧
    (∀ i < 5, ∀ j < 5, covC1get i j = covC1get j i) ∧
    (¬ List.Pairwise (fun a b => ∀ x, x ∈ a → x ∉ b)
      (find_diagonal_blocks covC1)) ∧
    (∀ b ∈ find_diagonal_blocks covC1, ¬ (0 ∈ b ∧ 1 ∈ b)) ∧
    covC1get 0 4 ≠ 0 ∧ covC1get 4 3 ≠ 0 ∧ covC1get 3 2 ≠ 0 ∧
    covC1get 2 1 ≠ 0 := by
  decide

/-! ### GVar collaborator model

A correlated Gaussian variable (external collaborator, see spec section 3)
is a mean plus a finite list of coefficients on a shared basis of
independent unit-variance normals; coefficients beyond the end of the
list are zero.  Covariances are dot products of coefficient lists. -/

structure GV where
  mean : ℚ
  coef : List ℚ
deriving DecidableEq

/-- Pointwise subtraction of coefficient lists, padding with zeros. -/
def zipSub : List ℚ → List ℚ → List ℚ
  | a, [] => a
  | [], b => b.map (fun x => -x)
  | a :: as_, b :: bs => (a - b) :: zipSub as_ bs

/-- `x - y` on GVars. -/
def GV.sub (x y : GV) : GV :=
  ⟨x.mean - y.mean, zipSub x.coef y.coef⟩

/-- Dot product of two coefficient lists (zero-padded). -/
def dotQ (a b : List ℚ) : ℚ :=
  (List.zipWith (fun x y => x * y) a b).sum

/-- `cov(x, y)` for the GVar model. -/
def GV.cov (x y : GV) : ℚ :=
  dotQ x.coef y.coef

/-- `evalcov` collaborator on a flat list of GVars. -/
def evalcovL (xs : List GV) : List (List ℚ) :=
  xs.map (fun x => xs.map (fun y => GV.cov x y))

/-- A collection passed to `chi2`: either a dictionary (ordered key/value
pairs, each value a 1-d array of GVars) or a (flattened) array of GVars.
Keys are modelled as naturals. -/
inductive GColl where
  | gdict : List (ℕ × List GV) → GColl
  | garr : List GV → GColl

/-- `hasattr(g, 'keys')`. -/
def GColl.isdict : GColl → Bool
  | gdict _ => true
  | garr _ => false

/-- `BufferDict(g).buf`: concatenate the values in key order. -/
def GColl.flat : GColl → List GV
  | gdict d => (d.map Prod.snd).flatten
  | garr a => a

/-- First value stored under key `k` (Python dict lookup). -/
def lookupD (d : List (ℕ × List GV)) (k : ℕ) : List GV :=
  match d.find? (fun p => p.1 = k) with
  | some p => p.2
  | none => []

/-- The difference collection built by `chi2` (src/gvar/__init__.py,
lines 219-260), flattened.  For two dictionaries the overlap is the key
intersection and, per key, the elementwise difference over the common
length (`zipWith` truncates exactly like the per-key `min` shape); for
two arrays it is the elementwise difference over the common length; for
one dictionary and one array the code raises `ValueError`. -/
def chi2Diff (g1 : GColl) (g2 : Option GColl) : Except String (List GV) :=
  match g2 with
  | none => .ok g1.flat
  | some h =>
    match g1, h with
    | .gdict d1, .gdict d2 =>
      let keys := (d1.map Prod.fst).filter (fun k => (d2.map Prod.fst).contains k)
      .ok ((keys.map (fun k => List.zipWith GV.sub (lookupD d1 k) (lookupD d2 k))).flatten)
    | .garr a1, .garr a2 => .ok (List.zipWith GV.sub a1 a2)
    | _, _ => .error "cannot compute chi**2 for types"

/-- The attributes `chi2.dof`, `chi2.Q`, `chi2.chi2` that the Python
function mutates on its own function object. -/
structure ChiAttrs where
  dof : ℕ
  Q : ℚ
  chi2v : ℚ
deriving DecidableEq

/-- Output contract of the external `SVD` class as used by `chi2`:
`decomp(-1)` (the rows of the inverse-square-root decomposition of the
regularized covariance) and `len(s.val)` (number of retained modes). -/
structure ChiSVD where
  decompNeg : List (List ℚ)
  nval : ℕ

/-- The body of `chi2` after the difference has been built
(src/gvar/__init__.py, lines 261-277): the statistic and the new
function-object attributes.  The external `SVD` class and `gammaQ` are
oracles (`oracle` receives the covariance matrix of the difference; `gq`
is the regularized upper incomplete gamma function).  Note that the early
return for an empty difference sets `dof` and `Q` but leaves `chi2.chi2`
at its stale previous value, exactly like the code. -/
def chi2Core (diff : List GV) (nocorr : Bool)
    (oracle : List (List ℚ) → ChiSVD) (gq : ℚ → ℚ → ℚ) (a : ChiAttrs) :
    ℚ × ChiAttrs :=
  let n := diff.length
  if n = 0 then (0, ⟨0, 0, a.chi2v⟩)
  else if nocorr then
    let ans := (diff.map (fun x => x.mean * x.mean / GV.cov x x)).sum
    (ans, ⟨n, gq ((n : ℚ) / 2) (ans / 2), ans⟩)
  else
    let s := oracle (evalcovL diff)
    let ans := (s.decompNeg.map (fun r => dotQ r (diff.map GV.mean) ^ 2)).sum
    (ans, ⟨s.nval, gq ((s.nval : ℚ) / 2) (ans / 2), ans⟩)

/-- `chi2(g1, g2, svdcut, svdnum, nocorr)` (src/gvar/__init__.py, lines
168-277): build the difference (possibly raising) and run the statistic.
The attribute state of the function object is threaded explicitly
(`a` in, new attributes out). -/
def chi2Exec (g1 : GColl) (g2 : Option GColl) (nocorr : Bool)
    (oracle : List (List ℚ) → ChiSVD) (gq : ℚ → ℚ → ℚ) (a : ChiAttrs) :
    Except String (ℚ × ChiAttrs) :=
  (chi2Diff g1 g2).map (fun diff => chi2Core diff nocorr oracle gq a)

theorem isOk_map {e : Except String (List GV)} {f : List GV → ℚ × ChiAttrs} :
    (e.map f).isOk = e.isOk := by
  cases e <;> rfl

/-- C6: `chi2(g1, g2)` raises exactly when one of `g1`, `g2` has a
mapping interface and the other does not; for compatible structures
(both mappings, both arrays, or `g2` omitted) it returns a value. -/
theorem chi2_usage_error (g1 g2 : GColl) (nocorr : Bool)
    (oracle : List (List ℚ) → ChiSVD) (gq : ℚ → ℚ → ℚ) (a : ChiAttrs) :
    ((chi2Exec g1 (some g2) nocorr oracle gq a).isOk = false ↔
      g1.isdict ≠ g2.isdict) ∧
    (chi2Exec g1 none nocorr oracle gq a).isOk = true := by
  constructor
  · rw [chi2Exec, isOk_map]
    cases g1 <;> cases g2 <;>
      simp [chi2Diff, GColl.isdict, Except.isOk, Except.toBool]
  · rw [chi2Exec, isOk_map]
    rfl

theorem lookupD_cons_self (k : ℕ) (v : List GV) (t : List (ℕ × List GV)) :
    lookupD ((k, v) :: t) k = v := by
  simp [lookupD, List.find?]

theorem lookupD_cons_ne (k k' : ℕ) (v : List GV) (t : List (ℕ × List GV))
    (h : k' ≠ k) : lookupD ((k, v) :: t) k' = lookupD t k' := by
  have hdec : (decide (k = k')) = false :=
    decide_eq_false (fun hk => h hk.symm)
  simp only [lookupD, List.find?, hdec]

theorem lookupD_map_of_nodup :
    ∀ (d : List (ℕ × List GV)), (d.map Prod.fst).Nodup →
      (d.map Prod.fst).map (fun k => lookupD d k) = d.map Prod.snd := by
  intro d
  induction d with
  | nil => intro _; rfl
  | cons p t ih =>
    intro hnd
    obtain ⟨k, v⟩ := p
    simp only [List.map_cons, List.nodup_cons] at hnd ⊢
    have step : (t.map Prod.fst).map (fun k' => lookupD ((k, v) :: t) k') =
        (t.map Prod.fst).map (fun k' => lookupD t k') := by
      apply List.map_congr_left
      intro k' hk'
      exact lookupD_cons_ne k k' v t (fun he => hnd.1 (he ▸ hk'))
    rw [lookupD_cons_self k v t, step, ih hnd.2]

theorem zipWith_sub_self_mean (v : List GV) :
    ∀ x ∈ List.zipWith GV.sub v v, x.mean = 0 := by
  induction v with
  | nil => intro x hx; cases hx
  | cons y t ih =>
    intro x hx
    rw [List.zipWith_cons_cons, List.mem_cons] at hx
    rcases hx with hx | hx
    · rw [hx]; simp [GV.sub]
    · exact ih x hx

theorem zipWith_sub_self_length (v : List GV) :
    (List.zipWith GV.sub v v).length = v.length := by
  simp

theorem dotQ_zero : ∀ (r l : List ℚ), (∀ x ∈ l, x = 0) → dotQ r l = 0
  | [], _, _ => rfl
  | _ :: _, [], _ => rfl
  | a :: r, b :: l, h => by
    have hb : b = 0 := h b (List.mem_cons_self _ _)
    have ht : dotQ r l = 0 :=
      dotQ_zero r l (fun x hx => h x (List.mem_cons_of_mem _ hx))
    unfold dotQ at ht ⊢
    rw [List.zipWith_cons_cons, List.sum_cons, hb, mul_zero, ht, add_zero]

theorem filter_contains_self (l : List ℕ) :
    l.filter (fun k => l.contains k) = l := by
  apply List.filter_eq_self.mpr
  intro a ha
  exact List.elem_eq_true_of_mem ha

theorem flatten_zipsub_length (d : List (ℕ × List GV))
    (hnodup : (d.map Prod.fst).Nodup) :
    (((d.map Prod.fst).map
      (fun k => List.zipWith GV.sub (lookupD d k) (lookupD d k))).flatten).length =
    ((d.map Prod.snd).flatten).length := by
  rw [List.length_flatten, List.length_flatten]
  have h3 : ∀ keys : List ℕ,
      (keys.map (fun k => List.zipWith GV.sub (lookupD d k) (lookupD d k))).map
        List.length =
      (keys.map (fun k => lookupD d k)).map List.length := by
    intro keys
    induction keys with
    | nil => rfl
    | cons a t iht =>
      simp only [List.map_cons, iht, zipWith_sub_self_length]
  rw [h3, lookupD_map_of_nodup d hnodup]

/-- C9: `chi2(g, g)` on identical inputs returns 0; `chi2.dof` is the
flattened size of the overlap (which is 0 for an empty collection, and in
particular `chi2.Q = 0` whenever `chi2.dof = 0`).  The `SVD` oracle is
constrained, per the spec, to retain all modes for the default positive
`svdcut` (`len(s.val)` equals the matrix size); dictionary inputs are
assumed to have no duplicate keys (a Python dict cannot). -/
theorem chi2_identical (g : GColl) (oracle : List (List ℚ) → ChiSVD)
    (gq : ℚ → ℚ → ℚ) (a : ChiAttrs)
    (hor : ∀ c, (oracle c).nval = c.length)
    (hnd : ∀ d, g = .gdict d → (d.map Prod.fst).Nodup) :
    ∃ r, chi2Exec g (some g) false oracle gq a = Except.ok r ∧
      r.1 = 0 ∧ r.2.dof = g.flat.length ∧ (r.2.dof = 0 → r.2.Q = 0) := by
  have hdiff : ∃ diff, chi2Diff g (some g) = Except.ok diff ∧
      (∀ x ∈ diff, x.mean = 0) ∧ diff.length = g.flat.length := by
    cases g with
    | garr v =>
      exact ⟨_, rfl, zipWith_sub_self_mean v, zipWith_sub_self_length v⟩
    | gdict d =>
      have hnodup := hnd d rfl
      refine ⟨((d.map Prod.fst).map
          (fun k => List.zipWith GV.sub (lookupD d k) (lookupD d k))).flatten,
        ?_, ?_, ?_⟩
      · simp only [chi2Diff, filter_contains_self]
      · intro x hx
        rw [List.mem_flatten] at hx
        obtain ⟨comp, hcomp, hx⟩ := hx
        rw [List.mem_map] at hcomp
        obtain ⟨k, _, hk⟩ := hcomp
        exact zipWith_sub_self_mean _ x (hk ▸ hx)
      · exact flatten_zipsub_length d hnodup
  obtain ⟨diff, hd, hmean, hlen⟩ := hdiff
  rw [chi2Exec, hd]
  by_cases hz : diff.length = 0
  · refine ⟨_, rfl, ?_, ?_, ?_⟩
    · simp only [Except.map, chi2Core, if_pos hz]
    · simp only [Except.map, chi2Core, if_pos hz]
      rw [← hlen, hz]
    · simp only [Except.map, chi2Core, if_pos hz]
      trivial
  · have hans : (((oracle (evalcovL diff)).decompNeg).map
        (fun r => dotQ r (diff.map GV.mean) ^ 2)).sum = 0 := by
      apply List.sum_eq_zero
      intro x hx
      rw [List.mem_map] at hx
      obtain ⟨r, _, hr⟩ := hx
      have hz2 : dotQ r (diff.map GV.mean) = 0 := by
        apply dotQ_zero
        intro y hy
        rw [List.mem_map] at hy
        obtain ⟨x', hx', hxy⟩ := hy
        rw [← hxy]; exact hmean x' hx'
      rw [hz2] at hr
      rw [← hr]
      norm_num
    have hnv : (oracle (evalcovL diff)).nval = diff.length := by
      rw [hor]
      simp [evalcovL]
    refine ⟨_, rfl, ?_, ?_, ?_⟩
    · simp only [Except.map, chi2Core, if_neg hz, Bool.false_eq_true, if_neg not_false]
      exact hans
    · simp only [Except.map, chi2Core, if_neg hz, Bool.false_eq_true, if_neg not_false]
      rw [hnv, hlen]
    · simp only [Except.map, chi2Core, if_neg hz, Bool.false_eq_true, if_neg not_false]
      intro hdof
      exact absurd (hnv ▸ hdof) hz

/-- Concrete one-element array collection used in witnesses. -/
def gC3 : GColl := .garr [⟨3, [1]⟩]

/-- Concrete `SVD` oracle: `decomp(-1)` is the covariance matrix itself
and all modes are retained. -/
def oracle0 : List (List ℚ) → ChiSVD := fun c => ⟨c, c.length⟩

/-- Concrete `gammaQ` oracle. -/
def gq0 : ℚ → ℚ → ℚ := fun _ _ => 1 / 2

/-- Witness for C9 at a concrete one-element collection. -/
theorem chi2_identical_witness :
    ((∀ c, (oracle0 c).nval = c.length) ∧
      (∀ d, gC3 = .gdict d → (d.map Prod.fst).Nodup)) ∧
    (∃ r, chi2Exec gC3 (some gC3) false oracle0 gq0 ⟨7, 7, 7⟩ = Except.ok r ∧
      r.1 = 0 ∧ r.2.dof = gC3.flat.length ∧ (r.2.dof = 0 → r.2.Q = 0)) :=
  ⟨⟨fun _ => rfl, fun _ h => GColl.noConfusion h⟩,
    chi2_identical gC3 oracle0 gq0 ⟨7, 7, 7⟩ (fun _ => rfl)
      (fun _ h => GColl.noConfusion h)⟩

/-- The observable diagnostics of a `chi2` call: returned statistic plus
the `dof` and `Q` attributes written to the function object. -/
def diagView : Except String (ℚ × ChiAttrs) → Except String (ℚ × ℕ × ℚ) :=
  Except.map (fun r => (r.1, r.2.dof, r.2.Q))

/-- C3 counterexample: a `chi2` call mutates the attribute state attached
to the function object: calling with prior attributes `(5, 5, 5)` leaves
the function object holding `(1, 1/2, 9)`. -/
theorem chi2_mutates_function_attrs :
    chi2Exec gC3 none false oracle0 gq0 ⟨5, 5, 5⟩ =
      Except.ok (9, ⟨1, 1 / 2, 9⟩) ∧
    (⟨1, 1 / 2, 9⟩ : ChiAttrs) ≠ ⟨5, 5, 5⟩ := by
  constructor
  · have hcore : chi2Core [⟨3, [1]⟩] false oracle0 gq0 ⟨5, 5, 5⟩ =
        (9, ⟨1, 1 / 2, 9⟩) := by
      simp [chi2Core, oracle0, gq0, evalcovL, dotQ, GV.cov, GV.mean]
      norm_num
    show (chi2Diff gC3 none).map
      (fun diff => chi2Core diff false oracle0 gq0 ⟨5, 5, 5⟩) = _
    rw [show chi2Diff gC3 none = Except.ok [⟨3, [1]⟩] from rfl]
    simp only [Except.map, hcore]
  · decide

/-- C3 amended: `chi2` stores its diagnostics (`dof`, `Q`, `chi2`) by
mutating attributes on the function object and returns only the
statistic; each call overwrites the observable diagnostics with values
that depend only on that call's inputs, not on the previous attribute
state (the raw `chi2.chi2` attribute is left stale by the empty-overlap
early return, which is why the statement projects to `dof` and `Q`). -/
theorem chi2_attrs_overwritten_per_call (g1 : GColl) (g2 : Option GColl)
    (nocorr : Bool) (oracle : List (List ℚ) → ChiSVD) (gq : ℚ → ℚ → ℚ)
    (a b : ChiAttrs) :
    diagView (chi2Exec g1 g2 nocorr oracle gq a) =
      diagView (chi2Exec g1 g2 nocorr oracle gq b) := by
  unfold chi2Exec diagView
  cases chi2Diff g1 g2 with
  | error e => rfl
  | ok diff =>
    simp only [Except.map, chi2Core]
    by_cases hz : diff.length = 0
    · rw [if_pos hz, if_pos hz]
    · rw [if_neg hz, if_neg hz]

/-! ### `svd` (src/gvar/__init__.py, lines 295-453)

The orchestration is embedded over an arbitrary value type `α` for the
GVar objects, with the vector-space operations passed as raw functions
(`zeroA`, `addA`, `smulA`); `α = ℚ` is used for concrete inputs.  The
external `SVD` class is an oracle indexed by the block. -/

/-- Output contract of the external `SVD` class for one multi-index block
(`SVD(block_cov, svdcut=svdcut, rescale=True, compute_delta=True)`),
modelled from the spec, section 4.2: rescaling vector `D` (always present
since `rescale=True`), retained (possibly floored) eigenvalues `val`,
retained eigenvectors `vec`, the optional correction `delta` (present
only under the floor policy), the rows of `decomp(-1)`, `eigen_range`,
and `nmod`. -/
structure BlockSVD (α : Type) where
  D : List ℚ
  val : List ℚ
  vec : List (List ℚ)
  delta : Option (List α)
  decompNeg : List (List ℚ)
  eigen_range : ℚ
  nmod : ℕ

/-- One entry of the `inv_wgts` list: pair 0 carries one scalar weight
per collected 1x1 index (a 1-d numpy array), later pairs carry a list of
weight vectors (a 2-d numpy array). -/
inductive InvWgt where
  | flat : List ℚ → InvWgt
  | mat : List (List ℚ) → InvWgt
deriving DecidableEq

/-- The results of a `svd` call: the returned modified collection plus
everything the Python function stores as attributes on its own function
object (`svd.dof`, `svd.nmod`, `svd.eigen_range`, `svd.logdet`,
`svd.correction`, `svd.blocks`) and the `inv_wgts` list (returned only
when `compute_inv=True`).  `logdet` is kept symbolically: Python computes
`sum(log(x) for x in logdetArgs) - 2 * sum(log(x) for x in logdetDArgs)`. -/
structure SvdOut (α : Type) where
  gmod : List α
  dof : ℕ
  nmod : ℕ
  eigen_range : ℚ
  logdetArgs : List ℚ
  logdetDArgs : List ℚ
  correction : List α
  invW : List (List ℕ × InvWgt)
  blocks : List (List ℕ)
deriving DecidableEq

/-- Entry `(i, j)` of a matrix. -/
def covEntry (cov : List (List ℚ)) (i j : ℕ) : ℚ :=
  (cov.getD i []).getD j 0

/-- `sum(c_k * x_k)` over a coefficient list, with raw operations. -/
def dotOp {α : Type} (zeroA : α) (addA : α → α → α) (smulA : ℚ → α → α)
    (r : List ℚ) (xs : List α) : α :=
  (List.zipWith smulA r xs).foldr addA zeroA

/-- Read the values of `xs` at the positions `idx` (`g.flat[idx]`). -/
def getIdx {α : Type} (zeroA : α) (xs : List α) (idx : List ℕ) : List α :=
  idx.map (fun i => xs.getD i zeroA)

/-- Write the values `vs` into `xs` at the positions `idx`
(`g.flat[idx] = vs`). -/
def setIdx {α : Type} (xs : List α) (idx : List ℕ) (vs : List α) : List α :=
  (List.zip idx vs).foldl (fun acc p => acc.set p.1 p.2) xs

/-- The replacement collection for a dropped-modes block
(src/gvar/__init__.py, lines 430-432):
`newg_i = sum over w in s.vec of (w_i / D_i) * (w . (D * g[idx]))`. -/
def newgCalc {α : Type} (zeroA : α) (addA : α → α → α) (smulA : ℚ → α → α)
    (D : List ℚ) (vecs : List (List ℚ)) (xs : List α) : List α :=
  (List.range xs.length).map (fun i =>
    (vecs.map (fun w =>
      smulA ((w.getD i 0) / (D.getD i 1))
        (dotOp zeroA addA smulA (List.zipWith (fun a b => a * b) w D) xs))).foldr
      addA zeroA)

/-- Mutable state of the block loop in `svd` (lines 400-437). -/
structure SvdState (α : Type) where
  g : List α
  logdetArgs : List ℚ
  logdetDArgs : List ℚ
  corr : List α
  inv1 : List ℕ × List ℚ
  invR : List (List ℕ × InvWgt)
  lost : ℕ
  nmod : ℕ
  eigen_range : ℚ

/-- One iteration of `for idx in block_idx` (src/gvar/__init__.py,
lines 406-437). -/
def svdStep {α : Type} (cov : List (List ℚ)) (svdcut : Option ℚ)
    (compute_inv : Bool) (oracle : List ℕ → BlockSVD α) (rsqrt : ℚ → ℚ)
    (zeroA : α) (addA : α → α → α) (smulA : ℚ → α → α)
    (st : SvdState α) (idx : List ℕ) : SvdState α :=
  if idx.length = 1 then
    let i := idx.headD 0
    { st with
      logdetArgs := st.logdetArgs ++ [covEntry cov i i]
      inv1 := if compute_inv then
          (st.inv1.1 ++ [i], st.inv1.2 ++ [rsqrt (covEntry cov i i)])
        else st.inv1 }
  else
    let s := oracle idx
    let st1 := { st with
      logdetDArgs := st.logdetDArgs ++ s.D
      logdetArgs := st.logdetArgs ++ s.val }
    let st2 := match s.delta with
      | some d =>
        { st1 with
          corr := setIdx st1.corr idx d
          g := setIdx st1.g idx
            (List.zipWith addA (getIdx zeroA st1.g idx) d) }
      | none =>
        { st1 with
          corr := setIdx st1.corr idx (List.replicate idx.length zeroA) }
    let st3 := if compute_inv then
        { st2 with invR := st2.invR ++ [(idx, InvWgt.mat s.decompNeg.reverse)] }
      else st2
    let st4 := match svdcut with
      | some c =>
        if c < 0 then
          { st3 with
            g := setIdx st3.g idx
              (newgCalc zeroA addA smulA s.D s.vec (getIdx zeroA st3.g idx))
            lost := st3.lost + (idx.length - s.vec.length) }
        else st3
      | none => st3
    { st4 with
      eigen_range := if s.eigen_range < st4.eigen_range then s.eigen_range
        else st4.eigen_range
      nmod := st4.nmod + s.nmod }

/-- `svd(g, svdcut, compute_inv)` (src/gvar/__init__.py, lines 295-453).
The function body contains no `raise`; the `Except` wrapper records that
a Python call can in principle raise, and every path of this embedding
returns `ok`. -/
def svdExec (α : Type) (zeroA : α) (addA : α → α → α) (smulA : ℚ → α → α)
    (g : List α) (cov : List (List ℚ)) (svdcut : Option ℚ)
    (compute_inv : Bool) (oracle : List ℕ → BlockSVD α) (rsqrt : ℚ → ℚ) :
    Except String (SvdOut α) :=
  let blocks := find_diagonal_blocks cov
  let init : SvdState α :=
    ⟨g, [], [], List.replicate cov.length zeroA, ([], []), [], 0, 0, 1⟩
  let fin := blocks.foldl
    (svdStep cov svdcut compute_inv oracle rsqrt zeroA addA smulA) init
  Except.ok
    { gmod := fin.g
      dof := g.length - fin.lost
      nmod := fin.nmod + fin.lost
      eigen_range := fin.eigen_range
      logdetArgs := fin.logdetArgs
      logdetDArgs := fin.logdetDArgs
      correction := fin.corr
      invW := (fin.inv1.1, InvWgt.flat fin.inv1.2) :: fin.invR
      blocks := blocks }

/-- C8: an empty collection is regularized without error, for every
`svdcut`, every `compute_inv` and every behaviour of the external `SVD`
class (hence also every `svdnum` it might honour): the result is the
empty collection with `svd.dof = 0`. -/
theorem svd_empty_collection (α : Type) (zeroA : α) (addA : α → α → α)
    (smulA : ℚ → α → α) (svdcut : Option ℚ) (compute_inv : Bool)
    (oracle : List ℕ → BlockSVD α) (rsqrt : ℚ → ℚ) :
    svdExec α zeroA addA smulA [] [] svdcut compute_inv oracle rsqrt =
      Except.ok ⟨[], 0, 0, 1, [], [], [], [([], InvWgt.flat [])], []⟩ := rfl

theorem fdbLoop_nil (nz : List (List ℕ)) : ∀ fuel, fdbLoop nz fuel [] = []
  | 0 => rfl
  | _ + 1 => rfl

theorem enumFrom_filter_zero (t : List ℚ) :
    ∀ m : ℕ, (∀ j, j < t.length → t.getD j 0 = 0) →
      (List.enumFrom m t).filter (fun p => p.2 ≠ 0) = [] := by
  induction t with
  | nil => intro m _; rfl
  | cons a t ih =>
    intro m hz
    have ha : a = 0 := by simpa using hz 0 (Nat.succ_pos _)
    rw [show List.enumFrom m (a :: t) = (m, a) :: List.enumFrom (m + 1) t
      from rfl]
    rw [List.filter_cons]
    have htail := ih (m + 1) (fun j hj => by
      simpa using hz (j + 1) (Nat.succ_lt_succ hj))
    rw [if_neg (by simp [ha])]
    exact htail

theorem enumFrom_filter_diag (t : List ℚ) :
    ∀ m i : ℕ, (∀ j, j < t.length → m + j ≠ i → t.getD j 0 = 0) →
      ((List.enumFrom m t).filter (fun p => p.2 ≠ 0)).map Prod.fst = [] ∨
      ((List.enumFrom m t).filter (fun p => p.2 ≠ 0)).map Prod.fst = [i] := by
  induction t with
  | nil => intro m i _; left; rfl
  | cons a t ih =>
    intro m i hz
    rw [show List.enumFrom m (a :: t) = (m, a) :: List.enumFrom (m + 1) t
      from rfl]
    rw [List.filter_cons]
    by_cases ha : a = 0
    · have hpred : (decide ((m, a).2 ≠ 0)) = false := by simp [ha]
      rw [hpred, if_neg (by simp [ha])]
      exact ih (m + 1) i (fun j hj hne => by
        have := hz (j + 1) (Nat.succ_lt_succ hj) (by omega)
        simpa using this)
    · have hmi : m = i := by
        by_contra hne
        exact ha (by simpa using hz 0 (Nat.succ_pos _) (by omega))
      rw [if_pos (by simp [ha])]
      have htail : (List.enumFrom (m + 1) t).filter (fun p => p.2 ≠ 0) = [] := by
        apply enumFrom_filter_zero
        intro j hj
        exact hz (j + 1) (Nat.succ_lt_succ hj) (by omega)
      rw [htail]
      right
      simp [hmi]

theorem insertS_self (i : ℕ) : insertS i [i] = [i] := by
  simp [insertS]

theorem pyNonZero_diag (m : List (List ℚ)) (i : ℕ)
    (hd : ∀ j, j < (m.getD i []).length → j ≠ i → (m.getD i []).getD j 0 = 0) :
    pyNonZero m i = [i] := by
  unfold pyNonZero
  rw [show (m.getD i []).enum = List.enumFrom 0 (m.getD i []) from rfl]
  rcases enumFrom_filter_diag (m.getD i []) 0 i
      (fun j hj hne => hd j hj (by omega)) with h | h
  · rw [h]; rfl
  · rw [h]; exact insertS_self i

theorem nonZeroSets_diag (cov : List (List ℚ))
    (hnz : ∀ i, i < cov.length → pyNonZero cov i = [i]) :
    ∀ i, i < cov.length → (nonZeroSets cov).getD i [] = [i] := by
  intro i hi
  unfold nonZeroSets
  rw [List.getD_eq_getElem?_getD, List.getElem?_map]
  simp [List.getElem?_range, hi, hnz i hi]

theorem find_diagonal_blocks_diag (cov : List (List ℚ))
    (hrows : ∀ r ∈ cov, r.length = cov.length)
    (hdiag : ∀ i < cov.length, ∀ j < cov.length, i ≠ j → covEntry cov i j = 0) :
    find_diagonal_blocks cov = (List.range cov.length).map (fun i => [i]) := by
  have hnz : ∀ i, i < cov.length → pyNonZero cov i = [i] := by
    intro i hi
    apply pyNonZero_diag
    intro j hj hne
    have hmem : cov.getD i [] ∈ cov := by
      rw [List.getD_eq_getElem?_getD, List.getElem?_eq_getElem hi]
      exact List.getElem_mem _
    have hrow : (cov.getD i []).length = cov.length := hrows _ hmem
    exact hdiag i hi j (hrow ▸ hj) (fun he => hne he.symm)
  have hgd := nonZeroSets_diag cov hnz
  simp only [find_diagonal_blocks]
  have hsingles : (List.range cov.length).filter
      (fun i => ((nonZeroSets cov).getD i []).length = 1) =
      List.range cov.length := by
    apply List.filter_eq_self.mpr
    intro a ha
    rw [List.mem_range] at ha
    have hval := hgd a ha
    rw [List.getD_eq_getElem?_getD] at hval
    simp [hval]
  have hrest : (List.range cov.length).filter
      (fun i => ((nonZeroSets cov).getD i []).length ≠ 1) = [] := by
    rw [List.filter_eq_nil_iff]
    intro a ha
    rw [List.mem_range] at ha
    have hval := hgd a ha
    rw [List.getD_eq_getElem?_getD] at hval
    simp [hval]
  rw [hsingles, hrest, fdbLoop_nil]
  simp

theorem svdStep_singleton {α : Type} (cov : List (List ℚ))
    (svdcut : Option ℚ) (compute_inv : Bool) (oracle : List ℕ → BlockSVD α)
    (rsqrt : ℚ → ℚ) (zeroA : α) (addA : α → α → α) (smulA : ℚ → α → α)
    (st : SvdState α) (b : List ℕ) (hb : b.length = 1) :
    (svdStep cov svdcut compute_inv oracle rsqrt zeroA addA smulA st b).g =
      st.g ∧
    (svdStep cov svdcut compute_inv oracle rsqrt zeroA addA smulA st b).lost =
      st.lost := by
  unfold svdStep
  rw [if_pos hb]
  exact ⟨rfl, rfl⟩

theorem foldl_singleton_blocks {α : Type} (cov : List (List ℚ))
    (svdcut : Option ℚ) (compute_inv : Bool) (oracle : List ℕ → BlockSVD α)
    (rsqrt : ℚ → ℚ) (zeroA : α) (addA : α → α → α) (smulA : ℚ → α → α) :
    ∀ (bs : List (List ℕ)) (st : SvdState α), (∀ b ∈ bs, b.length = 1) →
      ((bs.foldl (svdStep cov svdcut compute_inv oracle rsqrt zeroA addA smulA)
        st).g = st.g ∧
      (bs.foldl (svdStep cov svdcut compute_inv oracle rsqrt zeroA addA smulA)
        st).lost = st.lost) := by
  intro bs
  induction bs with
  | nil => intro st _; exact ⟨rfl, rfl⟩
  | cons b t ih =>
    intro st hb
    rw [List.foldl_cons]
    have hstep := svdStep_singleton cov svdcut compute_inv oracle rsqrt
      zeroA addA smulA st b (hb b (List.mem_cons_self _ _))
    obtain ⟨h1, h2⟩ := ih _ (fun b' hb' => hb b' (List.mem_cons_of_mem _ hb'))
    exact ⟨h1.trans hstep.1, h2.trans hstep.2⟩

/-- A junk `SVD` oracle (never consulted on diagonal covariances, whose
blocks are all 1x1). -/
def junkBlock : BlockSVD ℚ := ⟨[], [], [], none, [], 1, 0⟩

/-- C7 counterexample: `svd` contains no validation of the magnitude of
`svdcut`.  With `svdcut = 2` (so `|svdcut| > 1`) on a two-variable
diagonal collection the call completes normally and returns the
collection unchanged with `svd.dof = 2`, instead of raising. -/
theorem svd_accepts_large_svdcut :
    svdExec ℚ 0 (fun x y => x + y) (fun c x => c * x) [1, 2]
      [[1, 0], [0, 4]] (some 2) false (fun _ => junkBlock) (fun _ => 0) =
    Except.ok ⟨[1, 2], 2, 0, 1, [1, 4], [], [0, 0],
      [([], InvWgt.flat [])], [[0], [1]]⟩ := by
  rfl

/-- C7 amended: the entry point `svd` performs no validation of
`|svdcut| <= 1` (the bound appears only in the docstring): for every
`svdcut` whatsoever — in particular any with `|svdcut| > 1` — a call on a
collection with diagonal covariance returns normally, with the collection
unchanged and `svd.dof` equal to the collection size. -/
theorem svd_no_svdcut_validation (α : Type) (zeroA : α) (addA : α → α → α)
    (smulA : ℚ → α → α) (g : List α) (cov : List (List ℚ))
    (svdcut : Option ℚ) (compute_inv : Bool) (oracle : List ℕ → BlockSVD α)
    (rsqrt : ℚ → ℚ)
    (hrows : ∀ r ∈ cov, r.length = cov.length)
    (hdiag : ∀ i < cov.length, ∀ j < cov.length, i ≠ j → covEntry cov i j = 0) :
    ∃ out, svdExec α zeroA addA smulA g cov svdcut compute_inv oracle rsqrt =
      Except.ok out ∧ out.gmod = g ∧ out.dof = g.length := by
  have hone : ∀ b ∈ (List.range cov.length).map (fun i => [i]), b.length = 1 := by
    intro b hb
    obtain ⟨i, -, rfl⟩ := List.mem_map.mp hb
    rfl
  have hfold := foldl_singleton_blocks cov svdcut compute_inv oracle rsqrt
    zeroA addA smulA ((List.range cov.length).map (fun i => [i]))
    ⟨g, [], [], List.replicate cov.length zeroA, ([], []), [], 0, 0, 1⟩ hone
  refine ⟨_, rfl, ?_, ?_⟩
  · show (List.foldl
        (svdStep cov svdcut compute_inv oracle rsqrt zeroA addA smulA)
        ⟨g, [], [], List.replicate cov.length zeroA, ([], []), [], 0, 0, 1⟩
        (find_diagonal_blocks cov)).g = g
    rw [find_diagonal_blocks_diag cov hrows hdiag]
    exact hfold.1
  · show g.length - (List.foldl
        (svdStep cov svdcut compute_inv oracle rsqrt zeroA addA smulA)
        ⟨g, [], [], List.replicate cov.length zeroA, ([], []), [], 0, 0, 1⟩
        (find_diagonal_blocks cov)).lost = g.length
    rw [find_diagonal_blocks_diag cov hrows hdiag, hfold.2]
    rfl

/-- Witness for C7's amended statement at `svdcut = 2` (out of range). -/
theorem svd_no_svdcut_validation_witness :
    ((∀ r ∈ [[(9 : ℚ)]], r.length = [[(9 : ℚ)]].length) ∧
      (∀ i < [[(9 : ℚ)]].length, ∀ j < [[(9 : ℚ)]].length, i ≠ j →
        covEntry [[(9 : ℚ)]] i j = 0)) ∧
    (∃ out, svdExec ℚ 0 (fun x y => x + y) (fun c x => c * x) [5] [[9]]
        (some 2) false (fun _ => junkBlock) (fun _ => 0) =
      Except.ok out ∧ out.gmod = [5] ∧ out.dof = [(5 : ℚ)].length) :=
  ⟨⟨by decide, by decide⟩,
    svd_no_svdcut_validation ℚ 0 (fun x y => x + y) (fun c x => c * x)
      [5] [[9]] (some 2) false (fun _ => junkBlock) (fun _ => 0)
      (by decide) (by decide)⟩

/-! ### `wavg` (src/lsqfit/_extras.py, lines 67-183)

GVar arithmetic used by `wavg` (scalar multiples and sums of GVars, and
the first-order mean of nonlinear GVar expressions: the mean of a product
of GVars is the product of the means). -/

/-- Pointwise addition of coefficient lists, padding with zeros. -/
def zipAdd : List ℚ → List ℚ → List ℚ
  | a, [] => a
  | [], b => b
  | a :: as_, b :: bs => (a + b) :: zipAdd as_ bs

/-- `x + y` on GVars. -/
def GV.add (x y : GV) : GV :=
  ⟨x.mean + y.mean, zipAdd x.coef y.coef⟩

/-- `c * x` on GVars. -/
def GV.smul (c : ℚ) (x : GV) : GV :=
  ⟨c * x.mean, x.coef.map (fun a => c * a)⟩

/-- The deterministic zero GVar. -/
def GV.zero : GV := ⟨0, []⟩

/-- Sum of a list of GVars. -/
def gvSum (xs : List GV) : GV :=
  xs.foldr GV.add GV.zero

/-- `numpy.dot(r, xs)` for a weight vector and a GVar vector. -/
def gvDot (r : List ℚ) (xs : List GV) : GV :=
  gvSum (List.zipWith GV.smul r xs)

/-- The keyword parameters of `wavg`. -/
structure WParams where
  svdcut : Option ℚ
  svdnum : Option ℤ
  rescale : Bool
  covfac : Option ℚ
deriving DecidableEq

/-- The default parameters (`svdcut=None, svdnum=None, rescale=True,
covfac=None`). -/
def wpDefault : WParams := ⟨none, none, true, none⟩

/-- The attributes `wavg.chi2`, `wavg.dof`, `wavg.Q`,
`wavg.svdcorrection` that the Python function mutates on its own function
object (`svdcorrection` is the empty list, modelled `none`, unless an
`SVD` correction was applied). -/
structure WAttrs where
  chi2v : ℚ
  dof : ℤ
  Q : ℚ
  svdcorrection : Option GV
deriving DecidableEq

/-- `numpy.all(numpy.diag(numpy.diag(cov)) == cov)`. -/
def isDiagonal (cov : List (List ℚ)) : Bool :=
  (List.range cov.length).all (fun i =>
    (List.range ((cov.getD i []).length)).all (fun j =>
      i = j || covEntry cov i j = 0))

/-- `numpy.outer(w, w)`. -/
def outerQ (w : List ℚ) : List (List ℚ) :=
  w.map (fun a => w.map (fun b => a * b))

/-- Elementwise sum of two matrices. -/
def matAddQ (A B : List (List ℚ)) : List (List ℚ) :=
  List.zipWith (fun ra rb => List.zipWith (fun x y => x + y) ra rb) A B

/-- The zero matrix. -/
def zeroMatQ (n : ℕ) : List (List ℚ) :=
  List.replicate n (List.replicate n 0)

/-- The scalar branch of `wavg` (src/lsqfit/_extras.py, lines 146-182):
`xa` is a 1-d sequence of GVars.  `oInv` models `numpy.linalg.inv`,
`oSVD` the external `SVD` class (receiving the covariance and the
parameters, so any `svdnum` handling lives inside it), `gq` is `gammaQ`.
The `.mean` of the quadratic GVar expressions for `chi2` is the
first-order value: the same expression in the means. -/
def wavgScal (xs : List GV) (p : WParams)
    (oInv : List (List ℚ) → List (List ℚ))
    (oSVD : List (List ℚ) → WParams → BlockSVD GV)
    (gq : ℚ → ℚ → ℚ) : GV × WAttrs :=
  let cov0 := evalcovL xs
  let cov := match p.covfac with
    | some c => cov0.map (fun row => row.map (fun x => c * x))
    | none => cov0
  if isDiagonal cov then
    let invcov := (List.range xs.length).map (fun i => 1 / covEntry cov i i)
    let dof : ℤ := (xs.length : ℤ) - 1
    let ans := GV.smul (1 / invcov.sum) (gvDot invcov xs)
    let chi2v := (List.zipWith
      (fun x w => (x.mean - ans.mean) * (x.mean - ans.mean) * w) xs invcov).sum
    (ans, ⟨chi2v, dof, gq ((dof : ℚ) / 2) (chi2v / 2), none⟩)
  else
    let n := xs.length
    let useInv : Bool :=
      (match p.svdcut with
        | none => true
        | some c => decide (c = 0)) &&
      (match p.svdnum with
        | none => true
        | some k => decide (k < 0))
    if useInv then
      let invcov := oInv cov
      let dof : ℤ := (n : ℤ) - 1
      let sumInv := invcov.map List.sum
      let ans := GV.smul (1 / sumInv.sum) (gvDot sumInv xs)
      let dm := xs.map (fun x => x.mean - ans.mean)
      let chi2v := (List.zipWith (fun di row => di * dotQ row dm) dm invcov).sum
      (ans, ⟨chi2v, dof, gq ((dof : ℚ) / 2) (chi2v / 2), none⟩)
    else
      let s := oSVD cov p
      let invcov := ((s.decompNeg.reverse).map outerQ).foldr matAddQ (zeroMatQ n)
      let dof : ℤ := (s.val.length : ℤ) - 1
      let corr := match s.delta with
        | some d => some (gvSum d)
        | none => none
      let sumInv := invcov.map List.sum
      let ans := GV.smul (1 / sumInv.sum) (gvDot sumInv xs)
      let dm := xs.map (fun x => x.mean - ans.mean)
      let chi2v := (List.zipWith (fun di row => di * dotQ row dm) dm invcov).sum
      (ans, ⟨chi2v, dof, gq ((dof : ℚ) / 2) (chi2v / 2), corr⟩)

/-- `zip(*xaflat)`: the columns of a list of rows, truncated to the
shortest row. -/
def zipStar (rows : List (List GV)) : List (List GV) :=
  match rows with
  | [] => []
  | r :: rs =>
    let m := (rs.map List.length).foldl min r.length
    (List.range m).map (fun j => rows.map (fun row => row.getD j GV.zero))

/-- Input to `wavg`: a 1-d sequence of GVars, or a sequence of (1-d)
GVar arrays of a common shape. -/
inductive WInput where
  | scal : List GV → WInput
  | arrs : List (List GV) → WInput

/-- Result of `wavg`: a single GVar or an array of GVars. -/
inductive WOut where
  | one : GV → WOut
  | many : List GV → WOut
deriving DecidableEq

/-- `wavg(xa, svdcut, svdnum, rescale, covfac)` (src/lsqfit/_extras.py,
lines 67-183).  For a sequence of arrays (lines 135-143) the code
recurses elementwise as `wavg(xtuple)` — with every keyword parameter
left at its default — and returns inside the `try` block, before the
lines that set the function attributes: so the function-object attributes
are those left by the last elementwise recursive call (threaded here
through `a`). -/
def wavgExec (x : WInput) (p : WParams)
    (oInv : List (List ℚ) → List (List ℚ))
    (oSVD : List (List ℚ) → WParams → BlockSVD GV)
    (gq : ℚ → ℚ → ℚ) (a : WAttrs) : WOut × WAttrs :=
  match x with
  | .scal xs =>
    let r := wavgScal xs p oInv oSVD gq
    (.one r.1, r.2)
  | .arrs rows =>
    let cols := zipStar rows
    let rs := cols.map (fun c => wavgScal c wpDefault oInv oSVD gq)
    let a2 := match rs.getLast? with
      | some r => r.2
      | none => a
    (.many (rs.map Prod.fst), a2)

/-- Concrete pair of independent GVars (means 0 and 2, unit variances). -/
def wavgC10xs : List GV := [⟨0, [1]⟩, ⟨2, [0, 1]⟩]

/-- Concrete `numpy.linalg.inv` oracle. -/
def oInv0 : List (List ℚ) → List (List ℚ) := fun c => c

/-- Concrete `SVD` oracle for `wavg`. -/
def oSVD0 : List (List ℚ) → WParams → BlockSVD GV :=
  fun _ _ => ⟨[], [], [], none, [], 1, 0⟩

/-- C10: when `wavg` is given a sequence of arrays it recurses
elementwise with `wavg(xtuple)` only, so the caller's `svdcut`, `svdnum`,
`rescale` and `covfac` are not forwarded: the result (value and
function-object attributes) is identical to a call with the default
parameters, for every caller-supplied parameter set.  The second
conjunct shows the dropped parameters are observable: at the scalar
level, `covfac = 4` changes the result (the attribute `wavg.chi2` is 1/2
instead of 2), so the recursive calls really do lose information. -/
theorem wavg_array_ignores_params (rows : List (List GV)) (p : WParams)
    (oInv : List (List ℚ) → List (List ℚ))
    (oSVD : List (List ℚ) → WParams → BlockSVD GV)
    (gq : ℚ → ℚ → ℚ) (a : WAttrs) :
    (wavgExec (.arrs rows) p oInv oSVD gq a =
      wavgExec (.arrs rows) wpDefault oInv oSVD gq a) ∧
    (wavgScal wavgC10xs ⟨none, none, true, some 4⟩ oInv0 oSVD0 gq0 ≠
      wavgScal wavgC10xs wpDefault oInv0 oSVD0 gq0) := by
  constructor
  · rfl
  · exact of_decide_eq_true (by with_unfolding_all rfl)

/-! ### Frame property of `svd` (C4): heap model

`svd` first rebinds its local name `g` to a copy (`numpy.array(g)` /
`BufferDict(g)`, line 393-397) and then writes only into that copy
(`g.flat[idx] += s.delta`, `g.flat[idx] = newg`), rebinding array slots
to freshly created GVar objects; no existing GVar object is mutated
anywhere in the function.  This is modelled with an explicit heap of
array objects (lists of GVar references) and of GVar objects; the two
operations above are the only heap writes (the `inv_wgts` bookkeeping and
`svd.correction` touch only fresh local objects and the function's own
attributes, not the input). -/

structure GHeap where
  anext : ℕ
  arrs : ℕ → List ℕ
  vnext : ℕ
  vals : ℕ → GV

/-- Allocate a new array object (`numpy.array(g)` copies the slot list;
the element references are shared). -/
def allocArr (h : GHeap) (content : List ℕ) : GHeap × ℕ :=
  (⟨h.anext + 1, fun r => if r = h.anext then content else h.arrs r,
    h.vnext, h.vals⟩, h.anext)

/-- Allocate fresh GVar objects holding the values `vs`. -/
def allocVals (h : GHeap) (vs : List GV) : GHeap × List ℕ :=
  (⟨h.anext, h.arrs, h.vnext + vs.length,
    fun r => if h.vnext ≤ r ∧ r < h.vnext + vs.length then
        vs.getD (r - h.vnext) GV.zero
      else h.vals r⟩,
    (List.range vs.length).map (fun k => h.vnext + k))

/-- Rebind the slots `idx` of the array object `aref` to `refs`. -/
def writeArr (h : GHeap) (aref : ℕ) (idx : List ℕ) (refs : List ℕ) : GHeap :=
  ⟨h.anext,
    fun r => if r = aref then setIdx (h.arrs aref) idx refs else h.arrs r,
    h.vnext, h.vals⟩

/-- The values of the GVars at slots `idx` of array `aref`
(`g.flat[idx]`). -/
def readVals (h : GHeap) (aref : ℕ) (idx : List ℕ) : List GV :=
  (getIdx 0 (h.arrs aref) idx).map h.vals

/-- One iteration of the block loop of `svd`, restricted to its heap
effects (lines 406-437; 1x1 blocks perform no writes). -/
def svdHeapStep (svdcut : Option ℚ) (oracle : List ℕ → BlockSVD GV)
    (cref : ℕ) (st : GHeap) (idx : List ℕ) : GHeap :=
  if idx.length = 1 then st
  else
    let s := oracle idx
    let st2 := match s.delta with
      | some d =>
        let av := allocVals st
          (List.zipWith GV.add (readVals st cref idx) d)
        writeArr av.1 cref idx av.2
      | none => st
    match svdcut with
    | some c =>
      if c < 0 then
        let av2 := allocVals st2
          (newgCalc GV.zero GV.add GV.smul s.D s.vec (readVals st2 cref idx))
        writeArr av2.1 cref idx av2.2
      else st2
    | none => st2

/-- The heap effects of `svd(g, svdcut, compute_inv)`: copy the input
array, then run the block loop against the copy.  Returns the final heap
and the reference of the returned copy. -/
def svdHeap (h : GHeap) (gref : ℕ) (cov : List (List ℚ))
    (svdcut : Option ℚ) (oracle : List ℕ → BlockSVD GV) : GHeap × ℕ :=
  let a := allocArr h (h.arrs gref)
  ((find_diagonal_blocks cov).foldl (svdHeapStep svdcut oracle a.2) a.1, a.2)

/-- Frame invariant: arrays below `h.anext` and GVars below `h.vnext`
hold their original contents; the GVar allocator only moves forward. -/
def HInv (h st : GHeap) : Prop :=
  (∀ a, a < h.anext → st.arrs a = h.arrs a) ∧
  (∀ v, v < h.vnext → st.vals v = h.vals v) ∧
  h.vnext ≤ st.vnext

theorem allocWrite_inv (h : GHeap) (cref : ℕ) (hcref : h.anext ≤ cref)
    (st : GHeap) (hst : HInv h st) (vs : List GV) (idx : List ℕ) :
    HInv h (writeArr (allocVals st vs).1 cref idx (allocVals st vs).2) := by
  obtain ⟨ha, hv, hn⟩ := hst
  refine ⟨?_, ?_, ?_⟩
  · intro a haa
    show (if a = cref then _ else (allocVals st vs).1.arrs a) = h.arrs a
    rw [if_neg (by omega)]
    exact ha a haa
  · intro v hvv
    show (if st.vnext ≤ v ∧ v < st.vnext + vs.length then _ else st.vals v) =
      h.vals v
    rw [if_neg (by omega)]
    exact hv v hvv
  · show h.vnext ≤ st.vnext + vs.length
    omega

theorem svdHeapStep_inv (h : GHeap) (svdcut : Option ℚ)
    (oracle : List ℕ → BlockSVD GV) (cref : ℕ) (hcref : h.anext ≤ cref)
    (st : GHeap) (idx : List ℕ) (hst : HInv h st) :
    HInv h (svdHeapStep svdcut oracle cref st idx) := by
  unfold svdHeapStep
  by_cases hlen : idx.length = 1
  · rw [if_pos hlen]; exact hst
  · rw [if_neg hlen]
    have hst2 : HInv h (match (oracle idx).delta with
        | some d =>
          let av := allocVals st
            (List.zipWith GV.add (readVals st cref idx) d)
          writeArr av.1 cref idx av.2
        | none => st) := by
      cases (oracle idx).delta with
      | some d => exact allocWrite_inv h cref hcref st hst _ idx
      | none => exact hst
    cases svdcut with
    | none => dsimp only; exact hst2
    | some c =>
      dsimp only
      by_cases hc : c < 0
      · rw [if_pos hc]
        exact allocWrite_inv h cref hcref _ hst2 _ idx
      · rw [if_neg hc]
        exact hst2

theorem foldl_svdHeapStep_inv (h : GHeap) (svdcut : Option ℚ)
    (oracle : List ℕ → BlockSVD GV) (cref : ℕ) (hcref : h.anext ≤ cref) :
    ∀ (bs : List (List ℕ)) (st : GHeap), HInv h st →
      HInv h (bs.foldl (svdHeapStep svdcut oracle cref) st) := by
  intro bs
  induction bs with
  | nil => intro st hst; exact hst
  | cons b t ih =>
    intro st hst
    rw [List.foldl_cons]
    exact ih _ (svdHeapStep_inv h svdcut oracle cref hcref st b hst)

/-- C4: `svd` returns a fresh copy and never mutates the caller's
collection: after the call, the caller's array object still holds the
same GVar references, every GVar object it references still holds its
original value (for every `svdcut`, every `compute_inv` — which performs
no heap writes at all — and every behaviour of the external `SVD` class,
hence also every `svdnum` it might honour), and the returned array is a
fresh object distinct from the input. -/
theorem svd_input_unchanged (h : GHeap) (gref : ℕ) (cov : List (List ℚ))
    (svdcut : Option ℚ) (oracle : List ℕ → BlockSVD GV)
    (hg : gref < h.anext)
    (hrefs : ∀ v ∈ h.arrs gref, v < h.vnext) :
    (svdHeap h gref cov svdcut oracle).1.arrs gref = h.arrs gref ∧
    (∀ v ∈ h.arrs gref,
      (svdHeap h gref cov svdcut oracle).1.vals v = h.vals v) ∧
    (svdHeap h gref cov svdcut oracle).2 = h.anext ∧
    gref ≠ (svdHeap h gref cov svdcut oracle).2 := by
  have hinit : HInv h (allocArr h (h.arrs gref)).1 := by
    refine ⟨?_, fun v _ => rfl, le_refl _⟩
    intro a haa
    show (if a = h.anext then _ else h.arrs a) = h.arrs a
    rw [if_neg (by omega)]
  have hfin := foldl_svdHeapStep_inv h svdcut oracle h.anext (le_refl _)
    (find_diagonal_blocks cov) _ hinit
  obtain ⟨ha, hv, _⟩ := hfin
  refine ⟨ha gref hg, fun v hvm => hv v (hrefs v hvm), rfl, ?_⟩
  intro he
  rw [show (svdHeap h gref cov svdcut oracle).2 = h.anext from rfl] at he
  omega

/-- Witness for C4: a two-variable heap with a genuine multi-index block
whose floor-policy correction and drop-policy replacement are both
exercised, leaving the caller's array and GVars untouched. -/
theorem svd_input_unchanged_witness :
    ((0 : ℕ) < 1 ∧ (∀ v ∈ [0, 1], v < 2)) ∧
    (let h0 : GHeap := ⟨1, fun _ => [0, 1], 2, fun r => ⟨(r : ℚ), [1]⟩⟩
     (svdHeap h0 0 [[1, 1], [1, 1]] (some (-1 / 2))
        (fun _ => ⟨[1, 1], [2], [[1, 1]], some [⟨0, [1]⟩, ⟨0, [1]⟩], [], 1, 0⟩)).1.arrs
        0 = h0.arrs 0 ∧
      (∀ v ∈ h0.arrs 0,
        (svdHeap h0 0 [[1, 1], [1, 1]] (some (-1 / 2))
          (fun _ => ⟨[1, 1], [2], [[1, 1]], some [⟨0, [1]⟩, ⟨0, [1]⟩], [], 1, 0⟩)).1.vals
          v = h0.vals v) ∧
      (svdHeap h0 0 [[1, 1], [1, 1]] (some (-1 / 2))
        (fun _ => ⟨[1, 1], [2], [[1, 1]], some [⟨0, [1]⟩, ⟨0, [1]⟩], [], 1, 0⟩)).2 =
        h0.anext ∧
      (0 : ℕ) ≠ (svdHeap h0 0 [[1, 1], [1, 1]] (some (-1 / 2))
        (fun _ => ⟨[1, 1], [2], [[1, 1]], some [⟨0, [1]⟩, ⟨0, [1]⟩], [], 1, 0⟩)).2) :=
  ⟨⟨Nat.one_pos, by decide⟩,
    svd_input_unchanged ⟨1, fun _ => [0, 1], 2, fun r => ⟨(r : ℚ), [1]⟩⟩ 0
      [[1, 1], [1, 1]] (some (-1 / 2))
      (fun _ => ⟨[1, 1], [2], [[1, 1]], some [⟨0, [1]⟩, ⟨0, [1]⟩], [], 1, 0⟩)
      Nat.one_pos (by decide)⟩

/-! ### Drop policy for one correctly identified multi-index block

Modelled from the spec: the external `SVD` class (not under `src/`)
eigendecomposes the rescaled block covariance `R = D cov D`
(`D_i = cov_ii^(-1/2)`, so `D_i D_i cov_ii = 1`), and under the drop
policy (`svdcut < 0`) discards every eigenmode whose eigenvalue lies
below `|svdcut| * max_eig` (spec section 4.2 step 4); `s.vec` holds the
retained modes, listed here as `retained` with the discarded ones in
`dropped`.  A collection forming one multi-index block of size `k` is a
mean vector together with a coefficient matrix `A` on `m` independent
unit normals (covariance `A Aᵀ`); the replacement performed by lines
429-434 of src/gvar/__init__.py, `newg_i = Σ_w (w_i / D_i) (w · (D g))`,
is the linear map `dropP` applied to both the means and the coefficient
matrix (GVar arithmetic is linear).  This part of the development is over
`ℝ` (eigendecompositions are irrational), so a few definitions are
`noncomputable`. -/

theorem finsum_listsum {β γ : Type} (s : Finset β) (l : List γ)
    (f : γ → β → ℝ) :
    (∑ x in s, (l.map (fun y => f y x)).sum) =
      (l.map (fun y => ∑ x in s, f y x)).sum := by
  induction l with
  | nil => simp
  | cons a t ih =>
    simp only [List.map_cons, List.sum_cons, Finset.sum_add_distrib, ih]

/-- The rescaled block covariance `D · cov · D`. -/
def rescaleM {k : ℕ} (D : Fin k → ℝ) (cov : Fin k → Fin k → ℝ) :
    Fin k → Fin k → ℝ :=
  fun i j => D i * cov i j * D j

/-- The linear replacement map of the drop policy:
`(dropP g)_i = Σ over retained modes w of (w_i / D_i) (Σ_j w_j D_j g_j)`. -/
noncomputable def dropP {k : ℕ} (D : Fin k → ℝ) (retained : List (ℝ × (Fin k → ℝ))) :
    Fin k → Fin k → ℝ :=
  fun i j => (retained.map (fun md => (md.2 i / D i) * (md.2 j * D j))).sum

theorem dropP_component_zero {k : ℕ} (D : Fin k → ℝ)
    (retained : List (ℝ × (Fin k → ℝ))) (hD : ∀ i, D i ≠ 0)
    (u : Fin k → ℝ) (hu : ∀ md ∈ retained, (∑ i, u i * md.2 i) = 0)
    (x : Fin k → ℝ) :
    (∑ i, u i * D i * (∑ j, dropP D retained i j * x j)) = 0 := by
  have h1 : ∀ i, (∑ j, dropP D retained i j * x j) =
      (retained.map
        (fun md => (md.2 i / D i) * (∑ j, (md.2 j * D j) * x j))).sum := by
    intro i
    unfold dropP
    calc (∑ j, (retained.map
            (fun md => (md.2 i / D i) * (md.2 j * D j))).sum * x j)
        = (∑ j, (retained.map
            (fun md => (md.2 i / D i) * (md.2 j * D j) * x j)).sum) := by
          refine Finset.sum_congr rfl (fun j _ => ?_)
          rw [List.sum_map_mul_right]
      _ = (retained.map
            (fun md => ∑ j, (md.2 i / D i) * (md.2 j * D j) * x j)).sum :=
          finsum_listsum _ _ _
      _ = (retained.map
            (fun md => (md.2 i / D i) * (∑ j, (md.2 j * D j) * x j))).sum := by
          refine congrArg List.sum (List.map_congr_left (fun md _ => ?_))
          rw [Finset.mul_sum]
          exact Finset.sum_congr rfl (fun j _ => by ring)
  calc (∑ i, u i * D i * (∑ j, dropP D retained i j * x j))
      = (∑ i, (retained.map
          (fun md => u i * D i *
            ((md.2 i / D i) * (∑ j, (md.2 j * D j) * x j)))).sum) := by
        refine Finset.sum_congr rfl (fun i _ => ?_)
        rw [h1 i, List.sum_map_mul_left]
    _ = (retained.map
          (fun md => ∑ i, u i * D i *
            ((md.2 i / D i) * (∑ j, (md.2 j * D j) * x j)))).sum :=
        finsum_listsum _ _ _
    _ = (retained.map
          (fun md => (∑ i, u i * md.2 i) *
            (∑ j, (md.2 j * D j) * x j))).sum := by
        refine congrArg List.sum (List.map_congr_left (fun md _ => ?_))
        rw [Finset.sum_mul]
        refine Finset.sum_congr rfl (fun i _ => ?_)
        have hcan : D i * (md.2 i / D i) = md.2 i := by
          field_simp
          rw [mul_comm, mul_div_assoc, div_self (hD i), mul_one]
        calc u i * D i * ((md.2 i / D i) * (∑ j, (md.2 j * D j) * x j))
            = u i * (D i * (md.2 i / D i)) * (∑ j, (md.2 j * D j) * x j) := by
              ring
          _ = u i * md.2 i * (∑ j, (md.2 j * D j) * x j) := by rw [hcan]
    _ = 0 := by
        apply List.sum_eq_zero
        intro y hy
        rw [List.mem_map] at hy
        obtain ⟨md, hmd, rfl⟩ := hy
        rw [hu md hmd, zero_mul]

/-- Drop policy of `svd` on a correctly identified multi-index block,
eigendecomposed in isolation (spec-modelled `SVD`
class; src/gvar/__init__.py lines 429-434, 438).  Given the
eigendecomposition of the rescaled block covariance split into the modes
below the cut (`dropped`) and the rest (`retained`): exactly the
below-cut modes are dropped (`lost_modes = len(idx) - len(s.vec)` equals
the below-cut count), `svd.dof` for this single-block collection is the
number of retained modes, and after the replacement every direction
orthogonal to the retained eigenspace carries the deterministic zero
`0(0)`: its mean and every coefficient on the underlying normals vanish
in the new collection. -/
theorem svd_drop_policy {k m : ℕ} (cov : Fin k → Fin k → ℝ) (D : Fin k → ℝ)
    (gmean : Fin k → ℝ) (A : Fin k → Fin m → ℝ) (c maxv : ℝ)
    (dropped retained : List (ℝ × (Fin k → ℝ)))
    (hc : c < 0)
    (hD : ∀ i, 0 < D i)
    (hDdef : ∀ i, D i * D i * cov i i = 1)
    (hmodes : (dropped ++ retained).length = k)
    (heig : ∀ md ∈ dropped ++ retained, ∀ i,
      (∑ j, rescaleM D cov i j * md.2 j) = md.1 * md.2 i)
    (hmax : ∀ md ∈ dropped ++ retained, md.1 ≤ maxv)
    (hdrop : ∀ md ∈ dropped, md.1 < -c * maxv)
    (hkeep : ∀ md ∈ retained, ¬ (md.1 < -c * maxv)) :
    k - retained.length = dropped.length ∧
    k - (k - retained.length) = retained.length ∧
    (∀ u : Fin k → ℝ, (∀ md ∈ retained, (∑ i, u i * md.2 i) = 0) →
      (∑ i, u i * D i * (∑ j, dropP D retained i j * gmean j)) = 0 ∧
      (∀ t, (∑ i, u i * D i * (∑ j, dropP D retained i j * A j t)) = 0)) := by
  have hlen : dropped.length + retained.length = k := by
    rw [← List.length_append]; exact hmodes
  refine ⟨by omega, by omega, ?_⟩
  intro u hu
  have hDne : ∀ i, D i ≠ 0 := fun i => ne_of_gt (hD i)
  exact ⟨dropP_component_zero D retained hDne u hu gmean,
    fun t => dropP_component_zero D retained hDne u hu (fun j => A j t)⟩

/-- The concrete 2x2 block covariance closing the drop-policy theorem. -/
noncomputable def covC2 : Fin 2 → Fin 2 → ℝ :=
  fun i j => if i = j then 1 else 3 / 5

/-- Eigenvector `(1, 1)` of `covC2` (eigenvalue 8/5). -/
def vKeep : Fin 2 → ℝ := fun _ => 1

/-- Eigenvector `(1, -1)` of `covC2` (eigenvalue 2/5). -/
noncomputable def vDrop : Fin 2 → ℝ := fun i => if i = 0 then 1 else -1

/-- The drop-policy theorem at a concrete input: the block `covC2` with
`svdcut = -1/2`; the mode with
eigenvalue 2/5 falls below `(1/2)(8/5) = 4/5` and is dropped, the mode
with eigenvalue 8/5 is retained, and the dropped direction carries `0(0)`
after the replacement. -/
theorem svd_drop_policy_witness :
    ((- (1 / 2) : ℝ) < 0 ∧
      (∀ i : Fin 2, (0 : ℝ) < 1) ∧
      (∀ i : Fin 2, (1 : ℝ) * 1 * covC2 i i = 1) ∧
      ([((2 : ℝ) / 5, vDrop)] ++ [((8 : ℝ) / 5, vKeep)]).length = 2 ∧
      (∀ md ∈ [((2 : ℝ) / 5, vDrop)] ++ [((8 : ℝ) / 5, vKeep)], ∀ i,
        (∑ j, rescaleM (fun _ => (1 : ℝ)) covC2 i j * md.2 j) =
          md.1 * md.2 i) ∧
      (∀ md ∈ [((2 : ℝ) / 5, vDrop)] ++ [((8 : ℝ) / 5, vKeep)],
        md.1 ≤ (8 : ℝ) / 5) ∧
      (∀ md ∈ [((2 : ℝ) / 5, vDrop)], md.1 < -(-(1 / 2)) * ((8 : ℝ) / 5)) ∧
      (∀ md ∈ [((8 : ℝ) / 5, vKeep)], ¬ (md.1 < -(-(1 / 2)) * ((8 : ℝ) / 5))) ∧
      (∀ md ∈ [((8 : ℝ) / 5, vKeep)], (∑ i, vDrop i * md.2 i) = 0)) ∧
    (2 - ([((8 : ℝ) / 5, vKeep)] : List (ℝ × (Fin 2 → ℝ))).length = 1 ∧
      (∑ i, vDrop i * (1 : ℝ) *
        (∑ j, dropP (fun _ => (1 : ℝ)) [((8 : ℝ) / 5, vKeep)] i j *
          (fun _ : Fin 2 => (7 : ℝ)) j)) = 0 ∧
      (∀ t : Fin 1, (∑ i, vDrop i * (1 : ℝ) *
        (∑ j, dropP (fun _ => (1 : ℝ)) [((8 : ℝ) / 5, vKeep)] i j *
          (fun _ : Fin 2 => fun _ : Fin 1 => (3 : ℝ)) j t)) = 0)) := by
  have heig : ∀ md ∈ [((2 : ℝ) / 5, vDrop)] ++ [((8 : ℝ) / 5, vKeep)], ∀ i,
      (∑ j, rescaleM (fun _ => (1 : ℝ)) covC2 i j * md.2 j) =
        md.1 * md.2 i := by
    intro md hmd i
    rcases List.mem_cons.mp hmd with h | h
    · subst h
      fin_cases i <;>
        · simp only [rescaleM, covC2, vDrop, Fin.sum_univ_two]
          norm_num
    · rcases List.mem_singleton.mp h with rfl
      fin_cases i <;>
        · simp only [rescaleM, covC2, vKeep, Fin.sum_univ_two]
          norm_num
  have hu : ∀ md ∈ [((8 : ℝ) / 5, vKeep)], (∑ i, vDrop i * md.2 i) = 0 := by
    intro md hmd
    rcases List.mem_singleton.mp hmd with rfl
    simp [vDrop, vKeep, Fin.sum_univ_two]
  have hmax : ∀ md ∈ [((2 : ℝ) / 5, vDrop)] ++ [((8 : ℝ) / 5, vKeep)],
      md.1 ≤ (8 : ℝ) / 5 := by
    intro md hmd
    rcases List.mem_cons.mp hmd with h | h
    · subst h; norm_num
    · rcases List.mem_singleton.mp h with rfl; norm_num
  have hDdef : ∀ i : Fin 2, (1 : ℝ) * 1 * covC2 i i = 1 := by
    intro i; simp [covC2]
  have hdrop : ∀ md ∈ [((2 : ℝ) / 5, vDrop)],
      md.1 < -(-(1 / 2)) * ((8 : ℝ) / 5) := by
    intro md hmd
    rcases List.mem_singleton.mp hmd with rfl
    norm_num
  have hkeep : ∀ md ∈ [((8 : ℝ) / 5, vKeep)],
      ¬ (md.1 < -(-(1 / 2)) * ((8 : ℝ) / 5)) := by
    intro md hmd
    rcases List.mem_singleton.mp hmd with rfl
    norm_num
  have hmain := svd_drop_policy covC2 (fun _ => (1 : ℝ))
    (fun _ => (7 : ℝ)) (fun _ : Fin 2 => fun _ : Fin 1 => (3 : ℝ))
    (-(1 / 2)) ((8 : ℝ) / 5) [((2 : ℝ) / 5, vDrop)] [((8 : ℝ) / 5, vKeep)]
    (by norm_num) (fun _ => one_pos) hDdef (by simp)
    heig hmax hdrop hkeep
  obtain ⟨h1, _, h3⟩ := hmain
  have h4 := h3 vDrop hu
  exact ⟨⟨by norm_num, fun _ => one_pos, hDdef, by simp, heig, hmax, hdrop,
    hkeep, hu⟩, h1, h4.1, h4.2⟩

/-! ### The InverseWeights invariant over disjoint blocks

Modelled from the spec (the `SVD` class is not under `src/`): `svd` with
`compute_inv=True` (src/gvar/__init__.py lines 404-451) builds
`inv_wgts`: pair 0 collects every 1x1 block index `s` with the scalar
weight `cov_ss^(-1/2)` (line 410-412), and each later pair is one
multi-index block with the weight vectors `w = D v / sqrt(lam)` of its
retained modes (spec section 4.2 step 6, `s.decomp(-1)`).  Under the
floor policy all modes are retained and the modified block covariance is
the un-rescaled floored reconstruction `D⁻¹ (Σ lam v vᵀ) D⁻¹` (spec
section 4.2 step 5), while 1x1 blocks keep `cov_ss`.  A multi-index
block is given by its (global) index list, its rescaling vector `D`, and
its modes `(lam, r, v)` with `r² lam = 1` (so `r = lam^(-1/2)`);
eigenvector supports lie inside the block.  Weights are kept at global
indices, so "restricted to that pair's indices" is expressed by the
support hypotheses, and each scalar weight of pair 0 contributes at its
own index. -/

structure MBlock where
  idx : List ℕ
  D : ℕ → ℝ
  modes : List (ℝ × ℝ × (ℕ → ℝ))

/-- Weight vector of one retained mode: `w_t = D_t v_t / sqrt(lam)`. -/
def wvec (b : MBlock) (md : ℝ × ℝ × (ℕ → ℝ)) : ℕ → ℝ :=
  fun t => b.D t * md.2.2 t * md.2.1

/-- The block's contribution `Σ_w outer(w, w)` to the reconstructed
inverse. -/
def invBlock (b : MBlock) (i j : ℕ) : ℝ :=
  (b.modes.map (fun md => wvec b md i * wvec b md j)).sum

/-- The modified covariance of a multi-index block:
`D⁻¹ (Σ lam v vᵀ) D⁻¹`. -/
noncomputable def modBlock (b : MBlock) (i j : ℕ) : ℝ :=
  (b.modes.map (fun md => md.1 * md.2.2 i * md.2.2 j)).sum / (b.D i * b.D j)

/-- The diagonal contribution of the 1x1 blocks: entry `(i, j)` receives
`F s` when `i = j = s.1` for a collected single `s`. -/
def sdiag (singles : List (ℕ × ℝ)) (F : ℕ × ℝ → ℝ) (i j : ℕ) : ℝ :=
  (singles.map (fun s => if i = s.1 ∧ j = s.1 then F s else 0)).sum

/-- The inverse covariance reconstructed from the `inv_wgts` list. -/
def fullInv (singles : List (ℕ × ℝ)) (multis : List MBlock) (i j : ℕ) : ℝ :=
  sdiag singles (fun s => s.2 * s.2) i j +
    (multis.map (fun b => invBlock b i j)).sum

/-- The covariance matrix of the modified collection returned by `svd`. -/
noncomputable def fullMod (cov : ℕ → ℕ → ℝ) (singles : List (ℕ × ℝ))
    (multis : List MBlock) (i j : ℕ) : ℝ :=
  sdiag singles (fun s => cov s.1 s.1) i j +
    (multis.map (fun b => modBlock b i j)).sum

theorem invBlock_zero_left (b : MBlock)
    (hsup : ∀ md ∈ b.modes, ∀ t, t ∉ b.idx → md.2.2 t = 0)
    (i j : ℕ) (hi : i ∉ b.idx) : invBlock b i j = 0 := by
  apply List.sum_eq_zero
  intro x hx
  rw [List.mem_map] at hx
  obtain ⟨md, hmd, rfl⟩ := hx
  unfold wvec
  rw [hsup md hmd i hi]
  ring

theorem invBlock_zero_right (b : MBlock)
    (hsup : ∀ md ∈ b.modes, ∀ t, t ∉ b.idx → md.2.2 t = 0)
    (i j : ℕ) (hj : j ∉ b.idx) : invBlock b i j = 0 := by
  apply List.sum_eq_zero
  intro x hx
  rw [List.mem_map] at hx
  obtain ⟨md, hmd, rfl⟩ := hx
  unfold wvec
  rw [hsup md hmd j hj]
  ring

theorem modBlock_zero_left (b : MBlock)
    (hsup : ∀ md ∈ b.modes, ∀ t, t ∉ b.idx → md.2.2 t = 0)
    (i j : ℕ) (hi : i ∉ b.idx) : modBlock b i j = 0 := by
  unfold modBlock
  rw [List.sum_eq_zero, zero_div]
  intro x hx
  rw [List.mem_map] at hx
  obtain ⟨md, hmd, rfl⟩ := hx
  rw [hsup md hmd i hi]
  ring

theorem sdiag_ne (singles : List (ℕ × ℝ)) (F : ℕ × ℝ → ℝ) (i j : ℕ)
    (hij : i ≠ j) : sdiag singles F i j = 0 := by
  apply List.sum_eq_zero
  intro x hx
  rw [List.mem_map] at hx
  obtain ⟨s, _, rfl⟩ := hx
  have hcne : ¬ (i = s.1 ∧ j = s.1) := fun hc => hij (hc.1.trans hc.2.symm)
  rw [if_neg hcne]

theorem sdiag_zero_left (singles : List (ℕ × ℝ)) (F : ℕ × ℝ → ℝ) (i j : ℕ)
    (h : ∀ s ∈ singles, s.1 ≠ i) : sdiag singles F i j = 0 := by
  apply List.sum_eq_zero
  intro x hx
  rw [List.mem_map] at hx
  obtain ⟨s, hs, rfl⟩ := hx
  have hcne : ¬ (i = s.1 ∧ j = s.1) := fun hc => h s hs hc.1.symm
  rw [if_neg hcne]

theorem sdiag_diag_of_mem (F : ℕ × ℝ → ℝ) :
    ∀ (singles : List (ℕ × ℝ)), (singles.map Prod.fst).Nodup →
      ∀ s0 ∈ singles, sdiag singles F s0.1 s0.1 = F s0 := by
  intro singles
  induction singles with
  | nil => intro _ s0 h; cases h
  | cons s t ih =>
    intro hnd s0 hs0
    rw [List.map_cons, List.nodup_cons] at hnd
    unfold sdiag
    rw [List.map_cons, List.sum_cons]
    rcases List.mem_cons.mp hs0 with rfl | hmem
    · rw [if_pos ⟨rfl, rfl⟩]
      have ht : (t.map (fun s1 => if s0.1 = s1.1 ∧ s0.1 = s1.1 then F s1
          else 0)).sum = 0 := by
        apply List.sum_eq_zero
        intro x hx
        rw [List.mem_map] at hx
        obtain ⟨s1, hs1, rfl⟩ := hx
        have hcne : ¬ (s0.1 = s1.1 ∧ s0.1 = s1.1) :=
          fun hc => hnd.1 (hc.1 ▸ List.mem_map_of_mem Prod.fst hs1)
        rw [if_neg hcne]
      rw [ht, add_zero]
    · have hne : s.1 ≠ s0.1 :=
        fun he => hnd.1 (he ▸ List.mem_map_of_mem Prod.fst hmem)
      have hcne : ¬ (s0.1 = s.1 ∧ s0.1 = s.1) := fun hc => hne hc.1.symm
      rw [if_neg hcne, zero_add]
      exact ih hnd.2 s0 hmem

theorem map_sum_eq_single (g : MBlock → ℝ) :
    ∀ (l : List MBlock) (b0 : MBlock), b0 ∈ l →
      l.Pairwise (fun b1 b2 => ∀ t, t ∈ b1.idx → t ∉ b2.idx) →
      ∀ i, i ∈ b0.idx → (∀ b ∈ l, i ∉ b.idx → g b = 0) →
      (l.map g).sum = g b0 := by
  intro l
  induction l with
  | nil => intro b0 h; cases h
  | cons b t ih =>
    intro b0 hb0 hp i hi hz
    rw [List.pairwise_cons] at hp
    rw [List.map_cons, List.sum_cons]
    rcases List.mem_cons.mp hb0 with rfl | hmem
    · have ht : (t.map g).sum = 0 := by
        apply List.sum_eq_zero
        intro x hx
        rw [List.mem_map] at hx
        obtain ⟨b1, hb1, rfl⟩ := hx
        exact hz b1 (List.mem_cons_of_mem _ hb1) (hp.1 b1 hb1 i hi)
      rw [ht, add_zero]
    · have hhead : g b = 0 :=
        hz b (List.mem_cons_self _ _) (fun hib => hp.1 b0 hmem i hib hi)
      rw [hhead, zero_add]
      exact ih b0 hmem hp.2 i hi
        (fun b1 hb1 => hz b1 (List.mem_cons_of_mem _ hb1))

theorem ortho_collapse {M : Type} (ip f : M → M → ℝ)
    (hsym : ∀ a b, ip a b = ip b a) :
    ∀ (l : List M), (∀ a ∈ l, ip a a = 1) →
      l.Pairwise (fun a b => ip a b = 0) →
      (l.map (fun a => (l.map (fun c => f a c * ip a c)).sum)).sum =
        (l.map (fun a => f a a)).sum := by
  intro l
  induction l with
  | nil => intro _ _; rfl
  | cons a t ih =>
    intro hn hp
    rw [List.pairwise_cons] at hp
    simp only [List.map_cons, List.sum_cons]
    have ha : ip a a = 1 := hn a (List.mem_cons_self _ _)
    have h1 : (t.map (fun c => f a c * ip a c)).sum = 0 := by
      apply List.sum_eq_zero
      intro x hx
      rw [List.mem_map] at hx
      obtain ⟨c, hc, rfl⟩ := hx
      rw [hp.1 c hc, mul_zero]
    have h2 : (t.map (fun y => f y a * ip y a +
        (t.map (fun c => f y c * ip y c)).sum)).sum =
        (t.map (fun y => (t.map (fun c => f y c * ip y c)).sum)).sum := by
      refine congrArg List.sum (List.map_congr_left (fun y hy => ?_))
      rw [hsym y a, hp.1 y hy, mul_zero, zero_add]
    have h3 := ih (fun y hy => hn y (List.mem_cons_of_mem _ hy)) hp.2
    rw [ha, h1, mul_one, add_zero, h2, h3]

theorem listsum_mul {γ : Type} (l : List γ) (f g : γ → ℝ) :
    (l.map f).sum * (l.map g).sum =
      (l.map (fun a => (l.map (fun c => f a * g c)).sum)).sum := by
  rw [← List.sum_map_mul_right]
  refine congrArg List.sum (List.map_congr_left (fun a _ => ?_))
  rw [← List.sum_map_mul_left]

theorem listsum_div {γ : Type} (l : List γ) (f : γ → ℝ) (c : ℝ) :
    (l.map f).sum / c = (l.map (fun x => f x / c)).sum := by
  rw [div_eq_mul_inv, ← List.sum_map_mul_right]
  refine congrArg List.sum (List.map_congr_left (fun a _ => ?_))
  rw [div_eq_mul_inv]

theorem block_product (n : ℕ) (b : MBlock)
    (hsup : ∀ md ∈ b.modes, ∀ t, t ∉ b.idx → md.2.2 t = 0)
    (hD : ∀ t, b.D t ≠ 0)
    (hr : ∀ md ∈ b.modes, md.2.1 * md.2.1 * md.1 = 1)
    (hnorm : ∀ md ∈ b.modes,
      (∑ t in Finset.range n, md.2.2 t * md.2.2 t) = 1)
    (hpair : b.modes.Pairwise (fun m1 m2 =>
      (∑ t in Finset.range n, m1.2.2 t * m2.2.2 t) = 0))
    (hcomp : ∀ p ∈ b.idx, ∀ q ∈ b.idx,
      (b.modes.map (fun md => md.2.2 p * md.2.2 q)).sum =
        if p = q then 1 else 0)
    (i j : ℕ) (hi : i ∈ b.idx) :
    (∑ t in Finset.range n, invBlock b i t * modBlock b t j) =
      if i = j then 1 else 0 := by
  have hstep1 : ∀ t, invBlock b i t * modBlock b t j =
      (b.modes.map (fun a => (b.modes.map (fun c =>
        (wvec b a i * wvec b a t) * (c.1 * c.2.2 t * c.2.2 j) /
          (b.D t * b.D j))).sum)).sum := by
    intro t
    unfold invBlock modBlock
    rw [← mul_div_assoc, listsum_mul, listsum_div]
    refine congrArg List.sum (List.map_congr_left (fun a _ => ?_))
    rw [listsum_div]
  have hstep3 : ∀ a ∈ b.modes, ∀ c ∈ b.modes,
      (∑ t in Finset.range n,
        (wvec b a i * wvec b a t) * (c.1 * c.2.2 t * c.2.2 j) /
          (b.D t * b.D j)) =
      (wvec b a i * a.2.1 * c.1 * c.2.2 j / b.D j) *
        (∑ t in Finset.range n, a.2.2 t * c.2.2 t) := by
    intro a _ c _
    rw [Finset.mul_sum]
    refine Finset.sum_congr rfl (fun t _ => ?_)
    unfold wvec
    field_simp [hD t, hD j]
    ring
  have hsym : ∀ a c : ℝ × ℝ × (ℕ → ℝ),
      (∑ t in Finset.range n, a.2.2 t * c.2.2 t) =
      (∑ t in Finset.range n, c.2.2 t * a.2.2 t) :=
    fun a c => Finset.sum_congr rfl (fun t _ => mul_comm _ _)
  calc (∑ t in Finset.range n, invBlock b i t * modBlock b t j)
      = (∑ t in Finset.range n, (b.modes.map (fun a => (b.modes.map (fun c =>
          (wvec b a i * wvec b a t) * (c.1 * c.2.2 t * c.2.2 j) /
            (b.D t * b.D j))).sum)).sum) :=
        Finset.sum_congr rfl (fun t _ => hstep1 t)
    _ = (b.modes.map (fun a => ∑ t in Finset.range n, (b.modes.map (fun c =>
          (wvec b a i * wvec b a t) * (c.1 * c.2.2 t * c.2.2 j) /
            (b.D t * b.D j))).sum)).sum :=
        finsum_listsum _ _ _
    _ = (b.modes.map (fun a => (b.modes.map (fun c =>
          ∑ t in Finset.range n,
            (wvec b a i * wvec b a t) * (c.1 * c.2.2 t * c.2.2 j) /
              (b.D t * b.D j))).sum)).sum := by
        refine congrArg List.sum (List.map_congr_left (fun a _ => ?_))
        exact finsum_listsum _ _ _
    _ = (b.modes.map (fun a => (b.modes.map (fun c =>
          (wvec b a i * a.2.1 * c.1 * c.2.2 j / b.D j) *
            (∑ t in Finset.range n, a.2.2 t * c.2.2 t))).sum)).sum := by
        refine congrArg List.sum (List.map_congr_left (fun a ha => ?_))
        refine congrArg List.sum (List.map_congr_left (fun c hc => ?_))
        exact hstep3 a ha c hc
    _ = (b.modes.map (fun a =>
          wvec b a i * a.2.1 * a.1 * a.2.2 j / b.D j)).sum :=
        ortho_collapse _ _ hsym b.modes hnorm hpair
    _ = (b.D i / b.D j) * (b.modes.map (fun a => a.2.2 i * a.2.2 j)).sum := by
        rw [← List.sum_map_mul_left]
        refine congrArg List.sum (List.map_congr_left (fun a ha => ?_))
        have hra := hr a ha
        unfold wvec
        field_simp [hD j]
        linear_combination (b.D i * a.2.2 i * a.2.2 j) * hra
    _ = if i = j then 1 else 0 := by
        by_cases hj : j ∈ b.idx
        · rw [hcomp i hi j hj]
          by_cases hij : i = j
          · subst hij
            simp [div_self (hD i)]
          · simp [hij]
        · have hz : (b.modes.map (fun a => a.2.2 i * a.2.2 j)).sum = 0 := by
            apply List.sum_eq_zero
            intro x hx
            rw [List.mem_map] at hx
            obtain ⟨a, ha, rfl⟩ := hx
            rw [hsup a ha j hj, mul_zero]
          have hij : i ≠ j := fun he => hj (he ▸ hi)
          rw [hz, mul_zero, if_neg hij]

/-- The InverseWeights invariant in the disjoint-covering-blocks regime
(spec-modelled; src/gvar/__init__.py
lines 404-451).  Pair 0 of `inv_wgts` collects exactly the 1x1 block
indices, each with the weight `cov_ss^(-1/2)` (characterized by
`w² cov_ss = 1`); each later pair is one multi-index block with the
weights `w = D v / sqrt(lam)` of its modes; and the sum of
`outer(w, w)` over all weights of all pairs (`fullInv`) is a two-sided
inverse of the covariance of the modified collection (`fullMod`), here
in the floor-policy case where all modes are retained. -/
theorem inv_wgts_reconstruct (n : ℕ) (cov : ℕ → ℕ → ℝ)
    (singles : List (ℕ × ℝ)) (multis : List MBlock)
    (hsd : (singles.map Prod.fst).Nodup)
    (hsw : ∀ s ∈ singles, s.2 * s.2 * cov s.1 s.1 = 1)
    (hsm : ∀ s ∈ singles, ∀ b ∈ multis, s.1 ∉ b.idx)
    (hmm : multis.Pairwise (fun b1 b2 => ∀ t, t ∈ b1.idx → t ∉ b2.idx))
    (hsup : ∀ b ∈ multis, ∀ md ∈ b.modes, ∀ t, t ∉ b.idx → md.2.2 t = 0)
    (hD : ∀ b ∈ multis, ∀ t, b.D t ≠ 0)
    (hr : ∀ b ∈ multis, ∀ md ∈ b.modes, md.2.1 * md.2.1 * md.1 = 1)
    (hnorm : ∀ b ∈ multis, ∀ md ∈ b.modes,
      (∑ t in Finset.range n, md.2.2 t * md.2.2 t) = 1)
    (hpair : ∀ b ∈ multis, b.modes.Pairwise (fun m1 m2 =>
      (∑ t in Finset.range n, m1.2.2 t * m2.2.2 t) = 0))
    (hcomp : ∀ b ∈ multis, ∀ p ∈ b.idx, ∀ q ∈ b.idx,
      (b.modes.map (fun md => md.2.2 p * md.2.2 q)).sum =
        if p = q then 1 else 0)
    (hcover : ∀ t < n, (∃ s ∈ singles, s.1 = t) ∨ (∃ b ∈ multis, t ∈ b.idx))
    (i j : ℕ) (hi : i < n) (hj : j < n) :
    (∑ t in Finset.range n,
      fullInv singles multis i t * fullMod cov singles multis t j) =
      if i = j then 1 else 0 := by
  rcases hcover i hi with ⟨s0, hs0, hs0i⟩ | ⟨b0, hb0, hib0⟩
  · subst hs0i
    have hIfull : ∀ t, fullInv singles multis s0.1 t =
        if t = s0.1 then s0.2 * s0.2 else 0 := by
      intro t
      unfold fullInv
      have hblocks : (multis.map (fun b => invBlock b s0.1 t)).sum = 0 := by
        apply List.sum_eq_zero
        intro x hx
        rw [List.mem_map] at hx
        obtain ⟨b, hb, rfl⟩ := hx
        exact invBlock_zero_left b (hsup b hb) _ _ (hsm s0 hs0 b hb)
      rw [hblocks, add_zero]
      by_cases ht : t = s0.1
      · subst ht
        rw [if_pos rfl]
        exact sdiag_diag_of_mem _ singles hsd s0 hs0
      · rw [if_neg ht]
        exact sdiag_ne singles _ s0.1 t (fun he => ht he.symm)
    have hsum : (∑ t in Finset.range n,
        fullInv singles multis s0.1 t * fullMod cov singles multis t j) =
        (∑ t in Finset.range n,
          (if t = s0.1 then s0.2 * s0.2 else 0) *
            fullMod cov singles multis t j) :=
      Finset.sum_congr rfl (fun t _ => by rw [hIfull t])
    rw [hsum,
      Finset.sum_eq_single_of_mem s0.1 (Finset.mem_range.mpr hi)
        (fun t _ htne => by rw [if_neg htne, zero_mul]),
      if_pos rfl]
    unfold fullMod
    have hblocks2 : (multis.map (fun b => modBlock b s0.1 j)).sum = 0 := by
      apply List.sum_eq_zero
      intro x hx
      rw [List.mem_map] at hx
      obtain ⟨b, hb, rfl⟩ := hx
      exact modBlock_zero_left b (hsup b hb) _ _ (hsm s0 hs0 b hb)
    rw [hblocks2, add_zero]
    by_cases hij : s0.1 = j
    · subst hij
      rw [if_pos rfl, sdiag_diag_of_mem _ singles hsd s0 hs0]
      exact hsw s0 hs0
    · rw [if_neg hij, sdiag_ne singles _ s0.1 j hij, mul_zero]
  · have hIfull : ∀ t, fullInv singles multis i t = invBlock b0 i t := by
      intro t
      unfold fullInv
      rw [sdiag_zero_left singles _ i t
        (fun s hs he => hsm s hs b0 hb0 (by rw [he]; exact hib0)), zero_add]
      exact map_sum_eq_single (fun b => invBlock b i t) multis b0 hb0 hmm
        i hib0 (fun b hb hnb => invBlock_zero_left b (hsup b hb) i t hnb)
    have hMod : ∀ t, t ∈ b0.idx →
        fullMod cov singles multis t j = modBlock b0 t j := by
      intro t htb
      unfold fullMod
      rw [sdiag_zero_left singles _ t j
        (fun s hs he => hsm s hs b0 hb0 (by rw [he]; exact htb)), zero_add]
      exact map_sum_eq_single (fun b => modBlock b t j) multis b0 hb0 hmm
        t htb (fun b hb hnb => modBlock_zero_left b (hsup b hb) t j hnb)
    have hsum : (∑ t in Finset.range n,
        fullInv singles multis i t * fullMod cov singles multis t j) =
        (∑ t in Finset.range n, invBlock b0 i t * modBlock b0 t j) := by
      refine Finset.sum_congr rfl (fun t _ => ?_)
      rw [hIfull t]
      by_cases htb : t ∈ b0.idx
      · rw [hMod t htb]
      · rw [invBlock_zero_right b0 (hsup b0 hb0) i t htb, zero_mul, zero_mul]
    rw [hsum]
    exact block_product n b0 (hsup b0 hb0) (hD b0 hb0) (hr b0 hb0)
      (hnorm b0 hb0) (hpair b0 hb0) (hcomp b0 hb0) i j hib0

/-- The 1x1-block pair closing the reconstruction theorem: index 0 with
weight
`cov_00^(-1/2) = 1/2` (variance 4). -/
noncomputable def singlesW : List (ℕ × ℝ) := [(0, 1 / 2)]

/-- Covariance collaborator for the reconstruction closing instance (only
the 1x1 entry
`cov 0 0 = 4` is consulted). -/
def covW : ℕ → ℕ → ℝ := fun _ _ => 4

/-- First eigenvector `(3/5, 4/5)` of the witness block, at global
indices 1, 2. -/
noncomputable def v1W : ℕ → ℝ :=
  fun t => if t = 1 then 3 / 5 else if t = 2 then 4 / 5 else 0

/-- Second eigenvector `(-4/5, 3/5)` of the witness block. -/
noncomputable def v2W : ℕ → ℝ :=
  fun t => if t = 1 then -(4 / 5) else if t = 2 then 3 / 5 else 0

/-- The multi-index block of the reconstruction closing instance: indices
`[1, 2]`, trivial
rescaling, eigenvalues 25 and 1/4 with `r = 1/5` and `r = 2`. -/
noncomputable def blockW : MBlock :=
  ⟨[1, 2], fun _ => 1, [(25, 1 / 5, v1W), (1 / 4, 2, v2W)]⟩

/-- The reconstruction theorem at a three-variable collection: one 1x1
block and one
2x2 block with orthonormal rational eigenvectors; the reconstruction is
checked at entry `(1, 1)`. -/
theorem inv_wgts_reconstruct_witness :
    ((singlesW.map Prod.fst).Nodup ∧
      (∀ s ∈ singlesW, s.2 * s.2 * covW s.1 s.1 = 1) ∧
      (∀ s ∈ singlesW, ∀ b ∈ [blockW], s.1 ∉ b.idx) ∧
      ([blockW].Pairwise (fun b1 b2 => ∀ t, t ∈ b1.idx → t ∉ b2.idx)) ∧
      (∀ b ∈ [blockW], ∀ md ∈ b.modes, ∀ t, t ∉ b.idx → md.2.2 t = 0) ∧
      (∀ b ∈ [blockW], ∀ t, b.D t ≠ 0) ∧
      (∀ b ∈ [blockW], ∀ md ∈ b.modes, md.2.1 * md.2.1 * md.1 = 1) ∧
      (∀ b ∈ [blockW], ∀ md ∈ b.modes,
        (∑ t in Finset.range 3, md.2.2 t * md.2.2 t) = 1) ∧
      (∀ b ∈ [blockW], b.modes.Pairwise (fun m1 m2 =>
        (∑ t in Finset.range 3, m1.2.2 t * m2.2.2 t) = 0)) ∧
      (∀ b ∈ [blockW], ∀ p ∈ b.idx, ∀ q ∈ b.idx,
        (b.modes.map (fun md => md.2.2 p * md.2.2 q)).sum =
          if p = q then 1 else 0) ∧
      (∀ t < 3, (∃ s ∈ singlesW, s.1 = t) ∨ (∃ b ∈ [blockW], t ∈ b.idx))) ∧
    (∑ t in Finset.range 3,
      fullInv singlesW [blockW] 1 t * fullMod covW singlesW [blockW] t 1) =
      if (1 : ℕ) = 1 then (1 : ℝ) else 0 := by
  have hsd : (singlesW.map Prod.fst).Nodup := by simp [singlesW]
  have hsw : ∀ s ∈ singlesW, s.2 * s.2 * covW s.1 s.1 = 1 := by
    intro s hs
    rcases List.mem_singleton.mp hs with rfl
    norm_num [covW]
  have hsm : ∀ s ∈ singlesW, ∀ b ∈ [blockW], s.1 ∉ b.idx := by
    intro s hs b hb
    rcases List.mem_singleton.mp hs with rfl
    rcases List.mem_singleton.mp hb with rfl
    simp [blockW]
  have hmm : [blockW].Pairwise (fun b1 b2 => ∀ t, t ∈ b1.idx → t ∉ b2.idx) :=
    List.pairwise_singleton _ _
  have hsup : ∀ b ∈ [blockW], ∀ md ∈ b.modes, ∀ t, t ∉ b.idx →
      md.2.2 t = 0 := by
    intro b hb md hmd t ht
    rcases List.mem_singleton.mp hb with rfl
    simp only [blockW, List.mem_cons, List.mem_singleton] at hmd ht
    push_neg at ht
    rcases hmd with rfl | rfl | h
    · simp [v1W, ht.1, ht.2]
    · simp [v2W, ht.1, ht.2]
    · cases h
  have hD : ∀ b ∈ [blockW], ∀ t, b.D t ≠ 0 := by
    intro b hb t
    rcases List.mem_singleton.mp hb with rfl
    simp [blockW]
  have hr : ∀ b ∈ [blockW], ∀ md ∈ b.modes, md.2.1 * md.2.1 * md.1 = 1 := by
    intro b hb md hmd
    rcases List.mem_singleton.mp hb with rfl
    simp only [blockW, List.mem_cons, List.mem_singleton] at hmd
    rcases hmd with rfl | rfl | h
    · norm_num
    · norm_num
    · cases h
  have hnorm : ∀ b ∈ [blockW], ∀ md ∈ b.modes,
      (∑ t in Finset.range 3, md.2.2 t * md.2.2 t) = 1 := by
    intro b hb md hmd
    rcases List.mem_singleton.mp hb with rfl
    simp only [blockW, List.mem_cons, List.mem_singleton] at hmd
    rcases hmd with rfl | rfl | h
    · simp only [Finset.sum_range_succ, Finset.sum_range_zero, v1W]
      norm_num
    · simp only [Finset.sum_range_succ, Finset.sum_range_zero, v2W]
      norm_num
    · cases h
  have hpair : ∀ b ∈ [blockW], b.modes.Pairwise (fun m1 m2 =>
      (∑ t in Finset.range 3, m1.2.2 t * m2.2.2 t) = 0) := by
    intro b hb
    rcases List.mem_singleton.mp hb with rfl
    simp only [blockW]
    refine List.Pairwise.cons ?_ (List.pairwise_singleton _ _)
    intro m2 hm2
    rcases List.mem_singleton.mp hm2 with rfl
    simp only [Finset.sum_range_succ, Finset.sum_range_zero, v1W, v2W]
    norm_num
  have hcomp : ∀ b ∈ [blockW], ∀ p ∈ b.idx, ∀ q ∈ b.idx,
      (b.modes.map (fun md => md.2.2 p * md.2.2 q)).sum =
        if p = q then 1 else 0 := by
    intro b hb p hp q hq
    rcases List.mem_singleton.mp hb with rfl
    simp only [blockW, List.mem_cons, List.mem_singleton] at hp hq
    rcases hp with rfl | rfl | h
    · rcases hq with rfl | rfl | h2
      · simp [blockW, v1W, v2W]; norm_num
      · simp [blockW, v1W, v2W]; norm_num
      · cases h2
    · rcases hq with rfl | rfl | h2
      · simp [blockW, v1W, v2W]; norm_num
      · simp [blockW, v1W, v2W]; norm_num
      · cases h2
    · cases h
  have hcover : ∀ t < 3, (∃ s ∈ singlesW, s.1 = t) ∨
      (∃ b ∈ [blockW], t ∈ b.idx) := by
    intro t ht
    interval_cases t
    · exact Or.inl ⟨(0, 1 / 2), by simp [singlesW], rfl⟩
    · exact Or.inr ⟨blockW, List.mem_singleton_self _, by simp [blockW]⟩
    · exact Or.inr ⟨blockW, List.mem_singleton_self _, by simp [blockW]⟩
  exact ⟨⟨hsd, hsw, hsm, hmm, hsup, hD, hr, hnorm, hpair, hcomp, hcover⟩,
    inv_wgts_reconstruct 3 covW singlesW [blockW] hsd hsw hsm hmm hsup hD hr
      hnorm hpair hcomp hcover 1 1 (by norm_num) (by norm_num)⟩

/-! ### The chain collection: the block structure the one-pass sweep misgroups

The downstream behaviour of `svd` on an input whose covariance sparsity
doubles back (the chain (0,4), (4,3), (3,2), (2,1)): the block finder
splits the single connected component into two overlapping pseudo-blocks,
and the block loop of `svd` processes those. -/

/-- The five-variable chain collection: each variable carries one private
unit normal plus one shared unit normal per chain edge (1,2), (2,3),
(3,4), (4,0) it belongs to, so its covariance matrix is positive definite
with off-diagonal nonzeros exactly along the chain. -/
def gsChain : List GV :=
  [⟨10, [0, 0, 0, 1, 1, 0, 0, 0, 0]⟩,
   ⟨20, [1, 0, 0, 0, 0, 1, 0, 0, 0]⟩,
   ⟨30, [1, 1, 0, 0, 0, 0, 1, 0, 0]⟩,
   ⟨40, [0, 1, 1, 0, 0, 0, 0, 1, 0]⟩,
   ⟨50, [0, 0, 1, 1, 0, 0, 0, 0, 1]⟩]

/-- The covariance matrix of `gsChain` (the first conjunct of each theorem
below checks it against `evalcovL`). -/
def covChain : List (List ℚ) :=
  [[2, 0, 0, 0, 1],
   [0, 2, 1, 0, 0],
   [0, 1, 3, 1, 0],
   [0, 0, 1, 3, 1],
   [1, 0, 0, 1, 3]]

/-- Modelled from the spec: a concrete `SVD` collaborator for the two
pseudo-blocks the one-pass finder returns on `covChain`; each call keeps
a single eigenmode (`delta = None`, so no floor correction is written). -/
def oracleChain : List ℕ → BlockSVD GV := fun idx =>
  if idx = [0, 2, 3, 4] then
    ⟨[1, 1, 1, 1], [4], [[1 / 2, 1 / 2, 1 / 2, 1 / 2]], none,
      [[1 / 4, 1 / 4, 1 / 4, 1 / 4]], 1 / 100, 0⟩
  else
    ⟨[1, 1], [3], [[1 / 2, 1 / 2]], none, [[1 / 3, 1 / 3]], 1 / 10, 0⟩

/-- Square-root collaborator for the chain runs (never consulted: no 1x1
block arises). -/
def rsqChain : ℚ → ℚ := fun _ => 0

/-- Matrix product. -/
def matMulQ (A B : List (List ℚ)) : List (List ℚ) :=
  A.map (fun row => (List.range (B.headD []).length).map
    (fun j => ((row.zip B).map (fun p => p.1 * (p.2.getD j 0))).sum))

/-- The identity matrix. -/
def idMatQ (n : ℕ) : List (List ℚ) :=
  (List.range n).map (fun i =>
    (List.range n).map (fun j => if i = j then (1 : ℚ) else 0))

/-- The exact inverse of `covChain`; `matMulQ` verifies it below on both
sides.  Its entry (0, 1) is 1/55: the inverse couples every pair of chain
indices. -/
def invChain : List (List ℚ) :=
  [[34 / 55, 1 / 55, -2 / 55, 1 / 11, -13 / 55],
   [1 / 55, 34 / 55, -13 / 55, 1 / 11, -2 / 55],
   [-2 / 55, -13 / 55, 26 / 55, -2 / 11, 4 / 55],
   [1 / 11, 1 / 11, -2 / 11, 5 / 11, -2 / 11],
   [-13 / 55, -2 / 55, 4 / 55, -2 / 11, 26 / 55]]

/-- Modelled from the spec (the InverseWeights invariant): a weight vector
of a pair acts on the full collection through the pair's index array —
entry `t` of the scattered vector is the weight at the position of `t` in
the index array, zero for `t` outside it. -/
def scatterQ (n : ℕ) (idx : List ℕ) (w : List ℚ) : List ℚ :=
  (List.range n).map (fun t =>
    match (List.zip idx w).find? (fun p => p.1 = t) with
    | some p => p.2
    | none => 0)

/-- Modelled from the spec (the InverseWeights invariant): the sum of
`outer_product(w, w)` over one pair's weight vectors, each restricted to
the pair's indices; a scalar weight of pair 0 contributes at its own
index alone. -/
def pairMat (n : ℕ) (p : List ℕ × InvWgt) : List (List ℚ) :=
  match p.2 with
  | InvWgt.flat ws =>
      (List.zip p.1 ws).foldl
        (fun acc q => matAddQ acc (outerQ (scatterQ n [q.1] [q.2])))
        (zeroMatQ n)
  | InvWgt.mat rows =>
      rows.foldl (fun acc w => matAddQ acc (outerQ (scatterQ n p.1 w)))
        (zeroMatQ n)

/-- Modelled from the spec (the InverseWeights invariant): the
reconstruction `sum over pairs of sum over weight vectors w of
outer_product(w, w)`, each term restricted to its pair's indices. -/
def invWgtsMat (n : ℕ) (invW : List (List ℕ × InvWgt)) : List (List ℚ) :=
  invW.foldl (fun acc p => matAddQ acc (pairMat n p)) (zeroMatQ n)

/-- C2: the drop policy fails on the chain collection.  `evalcov(gsChain)`
is `covChain`, whose five indices form a single nonzero-path-connected
component (third conjunct), yet the block finder returns the two
overlapping pseudo-blocks `[0, 2, 3, 4]` and `[1, 2]`, and
`svd(gsChain, svdcut = -1/2)` eigendecomposes only those: the true
five-index block is never decomposed.  The replacement the first
pseudo-block writes at the shared index 2 is overwritten by the second
pseudo-block (all four positions of the first pseudo-block received the
identical single-mode projection, yet the result has
`gmod[2] = gmod[1] ≠ gmod[3]`), and `dof = 1`, `nmod = 4` are book-kept
over the pseudo-block sizes 4 and 2, not over the modes of the one true
block of size 5.  The claimed policy — outside-eigenspace components of
each block replaced by the deterministic zero and dof reduced by the
dropped modes of the collection's blocks — does not hold here. -/
theorem svd_drop_overwrites_shared_index :
    evalcovL gsChain = covChain ∧
    (covEntry covChain 0 4 ≠ 0 ∧ covEntry covChain 4 3 ≠ 0 ∧
     covEntry covChain 3 2 ≠ 0 ∧ covEntry covChain 2 1 ≠ 0 ∧
     covEntry covChain 0 1 = 0 ∧ covEntry covChain 0 2 = 0 ∧
     covEntry covChain 0 3 = 0) ∧
    find_diagonal_blocks covChain = [[0, 2, 3, 4], [1, 2]] ∧
    ∃ out : SvdOut GV,
      svdExec GV GV.zero GV.add GV.smul gsChain covChain
          (some (-(1 / 2))) false oracleChain rsqChain = Except.ok out ∧
      out.blocks = [[0, 2, 3, 4], [1, 2]] ∧
      out.dof = 1 ∧ out.nmod = 4 ∧
      out.gmod =
        [⟨65 / 2, [1 / 4, 1 / 2, 1 / 2, 1 / 2, 1 / 4, 0, 1 / 4, 1 / 4, 1 / 4]⟩,
         ⟨105 / 8,
          [5 / 16, 1 / 8, 1 / 8, 1 / 8, 1 / 16, 1 / 4, 1 / 16, 1 / 16, 1 / 16]⟩,
         ⟨105 / 8,
          [5 / 16, 1 / 8, 1 / 8, 1 / 8, 1 / 16, 1 / 4, 1 / 16, 1 / 16, 1 / 16]⟩,
         ⟨65 / 2, [1 / 4, 1 / 2, 1 / 2, 1 / 2, 1 / 4, 0, 1 / 4, 1 / 4, 1 / 4]⟩,
         ⟨65 / 2,
          [1 / 4, 1 / 2, 1 / 2, 1 / 2, 1 / 4, 0, 1 / 4, 1 / 4, 1 / 4]⟩] ∧
      out.gmod.getD 2 GV.zero = out.gmod.getD 1 GV.zero ∧
      out.gmod.getD 2 GV.zero ≠ out.gmod.getD 3 GV.zero := by
  have hrun : svdExec GV GV.zero GV.add GV.smul gsChain covChain
      (some (-(1 / 2))) false oracleChain rsqChain =
      Except.ok
        ⟨[⟨65 / 2, [1 / 4, 1 / 2, 1 / 2, 1 / 2, 1 / 4, 0, 1 / 4, 1 / 4, 1 / 4]⟩,
          ⟨105 / 8,
           [5 / 16, 1 / 8, 1 / 8, 1 / 8, 1 / 16, 1 / 4, 1 / 16, 1 / 16,
            1 / 16]⟩,
          ⟨105 / 8,
           [5 / 16, 1 / 8, 1 / 8, 1 / 8, 1 / 16, 1 / 4, 1 / 16, 1 / 16,
            1 / 16]⟩,
          ⟨65 / 2, [1 / 4, 1 / 2, 1 / 2, 1 / 2, 1 / 4, 0, 1 / 4, 1 / 4, 1 / 4]⟩,
          ⟨65 / 2,
           [1 / 4, 1 / 2, 1 / 2, 1 / 2, 1 / 4, 0, 1 / 4, 1 / 4, 1 / 4]⟩],
         1, 4, 1 / 100, [4, 3], [1, 1, 1, 1, 1, 1],
         List.replicate 5 GV.zero, [([], InvWgt.flat [])],
         [[0, 2, 3, 4], [1, 2]]⟩ := by
    with_unfolding_all rfl
  refine ⟨by with_unfolding_all rfl,
    ⟨by decide, by decide, by decide, by decide, by decide, by decide,
     by decide⟩,
    by decide, _, hrun, rfl, rfl, rfl, rfl,
    of_decide_eq_true (by with_unfolding_all rfl),
    of_decide_eq_true (by with_unfolding_all rfl)⟩

/-- C5: the InverseWeights invariant fails on the chain collection.  With
`svdcut = 1/2` and the floor never triggered nothing is modified
(`gmod = gsChain`, so the modified covariance is `covChain`, whose exact
two-sided inverse `invChain` exists and has 1/55 at entry (0, 1)), yet
`inv_wgts` holds the two overlapping pseudo-block pairs `[0, 2, 3, 4]`
and `[1, 2]` — not one pair per multi-index block of the covariance,
which has a single five-index block.  No pair carries both index 0 and
index 1, so the reconstruction sum of outer products restricted to the
pair index arrays has 0 at entry (0, 1) whatever the weights, its entry
(2, 2) double-counts the shared index, and it differs from the true
inverse of the modified covariance. -/
theorem inv_wgts_not_inverse_on_chain :
    evalcovL gsChain = covChain ∧
    matMulQ covChain invChain = idMatQ 5 ∧
    matMulQ invChain covChain = idMatQ 5 ∧
    covEntry invChain 0 1 = 1 / 55 ∧
    ∃ out : SvdOut GV,
      svdExec GV GV.zero GV.add GV.smul gsChain covChain (some (1 / 2))
          true oracleChain rsqChain = Except.ok out ∧
      out.gmod = gsChain ∧
      out.invW =
        [([], InvWgt.flat []),
         ([0, 2, 3, 4], InvWgt.mat [[1 / 4, 1 / 4, 1 / 4, 1 / 4]]),
         ([1, 2], InvWgt.mat [[1 / 3, 1 / 3]])] ∧
      covEntry (invWgtsMat 5 out.invW) 0 1 = 0 ∧
      covEntry (invWgtsMat 5 out.invW) 2 2 = 1 / 16 + 1 / 9 ∧
      invWgtsMat 5 out.invW ≠ invChain := by
  have hrun : svdExec GV GV.zero GV.add GV.smul gsChain covChain
      (some (1 / 2)) true oracleChain rsqChain =
      Except.ok
        ⟨gsChain, 5, 0, 1 / 100, [4, 3], [1, 1, 1, 1, 1, 1],
         List.replicate 5 GV.zero,
         [([], InvWgt.flat []),
          ([0, 2, 3, 4], InvWgt.mat [[1 / 4, 1 / 4, 1 / 4, 1 / 4]]),
          ([1, 2], InvWgt.mat [[1 / 3, 1 / 3]])],
         [[0, 2, 3, 4], [1, 2]]⟩ := by
    with_unfolding_all rfl
  refine ⟨by with_unfolding_all rfl, by with_unfolding_all rfl,
    by with_unfolding_all rfl, by with_unfolding_all rfl, _, hrun,
    rfl, rfl, by with_unfolding_all rfl, by with_unfolding_all rfl,
    of_decide_eq_true (by with_unfolding_all rfl)⟩
